import Mathlib

/-!
# Verification of the `lab3-regex` engine (`src/regex.py`)

The repository implements a small regular-expression engine.  A pattern made
of literal characters, the wildcard `.`, and the postfix quantifiers `*` and
`+` is compiled by `RegexFSM.__init__` into a graph of state objects
(`StartState`, `TerminationState`, `AsciiState`, `DotState`, `StarState`,
`PlusState`), and `RegexFSM.check_string` decides full-string acceptance by a
subset simulation with a worklist-based epsilon closure.

We embed the program shallowly: state objects become records stored in an
arena indexed by `Nat` (index 0 is the start state, index 1 the termination
state, further states are appended in creation order); object references
become indices.  Python's `set` objects of states become duplicate-free
`List Nat` values of indices (the simulation never depends on iteration
order).  The builder and the simulator are transcribed directly from the
source.
-/

set_option maxHeartbeats 1000000

namespace Regex

/-- The kind of a state: one constructor per `State` subclass in the source. -/
inductive Kind where
  | start
  | termination
  | ascii (c : Char)
  | dot
  | star
  | plus
deriving DecidableEq, Repr

/-- One state object: its kind, its `next_states` list (as arena indices, in
append order) and, for `StarState`/`PlusState`, the `loop_state` reference
(`none` models Python's initial `None`). -/
structure StateRec where
  kind : Kind
  next : List Nat
  loop : Option Nat
deriving DecidableEq, Repr

/-- The default record used for out-of-range arena lookups; a built automaton
never dereferences out of range (every stored index is a real state). -/
def dfltState : StateRec := ⟨Kind.termination, [], none⟩

/-- The compiled automaton: the arena of states.  Index 0 is `start_state`,
index 1 is `term_state`. -/
structure RegexFSM where
  states : List StateRec
deriving DecidableEq, Repr

/-- Arena lookup. -/
def getS (fsm : RegexFSM) (i : Nat) : StateRec :=
  fsm.states.getD i dfltState

/-- `check_self` of each `State` subclass, dispatched on the kind exactly as
the Python methods do: `AsciiState` compares the character, `DotState` is
always true, every other class returns `False`. -/
def checkSelf : Kind → Char → Bool
  | Kind.start, _ => false
  | Kind.termination, _ => false
  | Kind.ascii c, ch => ch == c
  | Kind.dot, _ => true
  | Kind.star, _ => false
  | Kind.plus, _ => false

/-- The epsilon-capable kinds: `isinstance(st, (StartState, StarState,
PlusState))` in `closure`. -/
def isEpsK : Kind → Bool
  | Kind.start => true
  | Kind.star => true
  | Kind.plus => true
  | _ => false

/-- `state.add_next(j)`: append `j` to the `next_states` of the state at
index `i` (no-op out of range; the builder only uses live indices). -/
def addEdge (arena : List StateRec) (i j : Nat) : List StateRec :=
  arena.set i
    { arena.getD i dfltState with next := (arena.getD i dfltState).next ++ [j] }

/-- The atom state created for a pattern character: `DotState()` for `'.'`,
otherwise `AsciiState(c)`. -/
def atomKind (c : Char) : Kind :=
  if c = '.' then Kind.dot else Kind.ascii c

/-- The `while i < len(pattern)` loop of `RegexFSM.__init__`, transcribed on
the remaining character list.  `prev` is the index of the `prev` object, the
returned pair is the final arena and the final `prev`.  In the quantifier
branches the freshly created atom is appended first, then the quantifier
state (with its `loop_state` set to the atom), then the edges are added in
source order. -/
def buildLoop : List Char → Nat → List StateRec → List StateRec × Nat
  | [], prev, arena => (arena, prev)
  | c :: q :: rest, prev, arena =>
    let sIdx := arena.length
    if q = '*' then
      let arena1 := arena ++ [⟨atomKind c, [], none⟩, ⟨Kind.star, [], some sIdx⟩]
      buildLoop rest (sIdx + 1)
        (addEdge (addEdge (addEdge arena1 prev sIdx) sIdx (sIdx + 1)) prev (sIdx + 1))
    else if q = '+' then
      let arena1 := arena ++ [⟨atomKind c, [], none⟩, ⟨Kind.plus, [], some sIdx⟩]
      buildLoop rest (sIdx + 1)
        (addEdge (addEdge arena1 prev sIdx) sIdx (sIdx + 1))
    else
      buildLoop (q :: rest) sIdx (addEdge (arena ++ [⟨atomKind c, [], none⟩]) prev sIdx)
  | [c], prev, arena =>
    let sIdx := arena.length
    (addEdge (arena ++ [⟨atomKind c, [], none⟩]) prev sIdx, sIdx)

/-- `RegexFSM.__init__(pattern)`: start with the start and termination
states, run the construction loop, then add the final
`prev.add_next(self.term_state)` edge. -/
def build (p : String) : RegexFSM :=
  let r := buildLoop p.toList 0 [⟨Kind.start, [], none⟩, ⟨Kind.termination, [], none⟩]
  ⟨addEdge r.1 r.2 1⟩

/-- `set.add`: add an element to a set represented as a duplicate-free list. -/
def insertL (n : Nat) (l : List Nat) : List Nat :=
  if n ∈ l then l else n :: l

/-- The body of `for nxt in st.next_states: if nxt not in result: ...` —
push each unseen successor on the stack and record it in the result set. -/
def pushNew : List Nat → List Nat → List Nat → List Nat × List Nat
  | [], stack, res => (stack, res)
  | n :: ns, stack, res =>
    if n ∈ res then pushNew ns stack res
    else pushNew ns (n :: stack) (n :: res)

/-- The worklist loop of `closure`: pop a state, and when it is
epsilon-capable push its unseen successors.  `fuel` bounds the number of
pops; `closureF` supplies enough fuel for the loop to drain the stack. -/
def closureAux (fsm : RegexFSM) : Nat → List Nat → List Nat → List Nat
  | 0, _, res => res
  | _ + 1, [], res => res
  | fuel + 1, st :: stack, res =>
    if isEpsK (getS fsm st).kind then
      let p := pushNew (getS fsm st).next stack res
      closureAux fsm fuel p.1 p.2
    else
      closureAux fsm fuel stack res

/-- Total length of all `next_states` lists of the automaton. -/
def totalEdges (fsm : RegexFSM) : Nat :=
  (fsm.states.map (fun s => s.next.length)).sum

/-- `closure(states)` of `check_string`: worklist-based epsilon closure of a
state set.  `stack = list(states)`, `result = set(states)`.  Each state is
pushed at most once, so `|states| + totalEdges + 1` pops always drain the
stack. -/
def closureF (fsm : RegexFSM) (s : List Nat) : List Nat :=
  closureAux fsm (s.length + totalEdges fsm + 1) s s

/-- The `loop_state.check_self(ch)` test; `none` (never the case in a built
automaton) yields `false`. -/
def loopCheck (fsm : RegexFSM) (st : StateRec) (ch : Char) : Bool :=
  match st.loop with
  | some j => checkSelf (getS fsm j).kind ch
  | none => false

/-- One character step of `check_string`: the `next_active` set built from
the current active set — successors of states whose `check_self` holds, plus
every active `StarState`/`PlusState` whose loop atom matches the character. -/
def stepChar (fsm : RegexFSM) (act : List Nat) (ch : Char) : List Nat :=
  act.foldl
    (fun acc i =>
      let st := getS fsm i
      let acc1 := if checkSelf st.kind ch then st.next.foldl (fun a j => insertL j a) acc
        else acc
      if (st.kind = Kind.star ∨ st.kind = Kind.plus) ∧ loopCheck fsm st ch = true
        then insertL i acc1 else acc1)
    []

/-- `RegexFSM.check_string(s)`: seed with the closure of the start state
minus the start state, fold the character steps (closing after each), close
once more and test membership of the termination state. -/
def RegexFSM.check_string (fsm : RegexFSM) (s : String) : Bool :=
  let a0 := (closureF fsm [0]).erase 0
  let fin := s.toList.foldl (fun act ch => closureF fsm (stepChar fsm act ch)) a0
  decide (1 ∈ closureF fsm fin)

/-! ## Token-level view of the builder

`RegexFSM.__init__` consumes the pattern in steps of one atom plus an
optional quantifier.  We record each step as a token and characterise the
built arena as a closed-form function of the token list. -/

/-- One builder step: an atom consumed alone, or together with a `*` or `+`
lookahead. -/
inductive Tok where
  | plain (c : Char)
  | star (c : Char)
  | plus (c : Char)
deriving DecidableEq, Repr

/-- The token list consumed by the builder's lookahead loop. -/
def tokens : List Char → List Tok
  | [] => []
  | [c] => [Tok.plain c]
  | c :: q :: rest =>
    if q = '*' then Tok.star c :: tokens rest
    else if q = '+' then Tok.plus c :: tokens rest
    else Tok.plain c :: tokens (q :: rest)

/-- Number of arena states a token contributes. -/
def tokSize : Tok → Nat
  | Tok.plain _ => 1
  | Tok.star _ => 2
  | Tok.plus _ => 2

/-- The edges the builder adds from the previous state into the block of a
token based at index `b`: `previous → atom` always, plus `previous → Star`
for a star token (and no `previous → Plus` edge for a plus token). -/
def entryEdges (b : Nat) : Tok → List Nat
  | Tok.plain _ => [b]
  | Tok.star _ => [b, b + 1]
  | Tok.plus _ => [b]

/-- The outgoing edges of the exit state of a block: the entry edges of the
following block at base `b`, or the final edge to the termination state. -/
def exitOf (b : Nat) : List Tok → List Nat
  | [] => [1]
  | t :: _ => entryEdges b t

/-- The arena block a token contributes at base index `b`, with `exitN` the
outgoing edges of its exit state. -/
def blockOf (b : Nat) (exitN : List Nat) : Tok → List StateRec
  | Tok.plain c => [⟨atomKind c, exitN, none⟩]
  | Tok.star c => [⟨atomKind c, [b + 1], none⟩, ⟨Kind.star, exitN, some b⟩]
  | Tok.plus c => [⟨atomKind c, [b + 1], none⟩, ⟨Kind.plus, exitN, some b⟩]

/-- The arena segment of a token list starting at base index `b`. -/
def modelStates (b : Nat) : List Tok → List StateRec
  | [] => []
  | t :: rest => blockOf b (exitOf (b + tokSize t) rest) t ++ modelStates (b + tokSize t) rest

/-- Closed form of the arena built from a token list. -/
def modelArena (T : List Tok) : List StateRec :=
  ⟨Kind.start, exitOf 2 T, none⟩ :: ⟨Kind.termination, [], none⟩ :: modelStates 2 T

/-- Append a batch of edges to the state at index `i`. -/
def bumpNext (arena : List StateRec) (i : Nat) (js : List Nat) : List StateRec :=
  arena.set i
    { arena.getD i dfltState with next := (arena.getD i dfltState).next ++ js }

/-- The builder loop, one token per step (the `*`/`+` branches fused with
the atom they quantify). -/
def tokLoop : List Tok → Nat → List StateRec → List StateRec × Nat
  | [], prev, arena => (arena, prev)
  | Tok.plain c :: rest, prev, arena =>
    let sIdx := arena.length
    tokLoop rest sIdx (addEdge (arena ++ [⟨atomKind c, [], none⟩]) prev sIdx)
  | Tok.star c :: rest, prev, arena =>
    let sIdx := arena.length
    let arena1 := arena ++ [⟨atomKind c, [], none⟩, ⟨Kind.star, [], some sIdx⟩]
    tokLoop rest (sIdx + 1)
      (addEdge (addEdge (addEdge arena1 prev sIdx) sIdx (sIdx + 1)) prev (sIdx + 1))
  | Tok.plus c :: rest, prev, arena =>
    let sIdx := arena.length
    let arena1 := arena ++ [⟨atomKind c, [], none⟩, ⟨Kind.plus, [], some sIdx⟩]
    tokLoop rest (sIdx + 1)
      (addEdge (addEdge arena1 prev sIdx) sIdx (sIdx + 1))

theorem buildLoop_eq_tokLoop (cs : List Char) (prev : Nat) (arena : List StateRec) :
    buildLoop cs prev arena = tokLoop (tokens cs) prev arena := by
  induction cs using tokens.induct generalizing prev arena with
  | case1 => rfl
  | case2 c => rfl
  | case3 c rest ih =>
    simp only [buildLoop, tokens, if_pos rfl, tokLoop]
    exact ih _ _
  | case4 c rest hne ih =>
    simp only [buildLoop, tokens, if_neg hne, if_pos rfl, tokLoop]
    exact ih _ _
  | case5 c q rest hq hq2 ih =>
    simp only [buildLoop, tokens, if_neg hq, if_neg hq2, tokLoop]
    exact ih _ _

theorem addEdge_eq_bump (arena : List StateRec) (i j : Nat) :
    addEdge arena i j = bumpNext arena i [j] := rfl

@[simp] theorem bumpNext_length (arena : List StateRec) (i : Nat) (js : List Nat) :
    (bumpNext arena i js).length = arena.length := by
  simp [bumpNext]

theorem bumpNext_append_left {A : List StateRec} (B : List StateRec) {i : Nat}
    (h : i < A.length) (js : List Nat) :
    bumpNext (A ++ B) i js = bumpNext A i js ++ B := by
  unfold bumpNext
  rw [List.getD_append _ _ _ _ h, List.set_append_left _ _ h]

theorem bumpNext_at_cons (A : List StateRec) (s : StateRec) (B : List StateRec)
    (js : List Nat) :
    bumpNext (A ++ s :: B) A.length js = A ++ ({ s with next := s.next ++ js }) :: B := by
  have h1 : (A ++ s :: B).getD A.length dfltState = s := by
    rw [List.getD_append_right _ _ _ _ (le_refl _), Nat.sub_self]
    rfl
  have h2 : (A ++ s :: B).set A.length ({ s with next := s.next ++ js })
      = A ++ ({ s with next := s.next ++ js }) :: B := by
    rw [List.set_append_right _ _ (le_refl _), Nat.sub_self]
    rfl
  unfold bumpNext
  rw [h1]
  exact h2

theorem bumpNext_bumpNext (arena : List StateRec) (i : Nat) (js ks : List Nat) :
    bumpNext (bumpNext arena i js) i ks = bumpNext arena i (js ++ ks) := by
  by_cases h : i < arena.length
  · unfold bumpNext
    have hget : ((arena.set i
        { arena.getD i dfltState with
          next := (arena.getD i dfltState).next ++ js }).getD i dfltState)
        = { arena.getD i dfltState with
            next := (arena.getD i dfltState).next ++ js } := by
      have : i < (arena.set i { arena.getD i dfltState with
          next := (arena.getD i dfltState).next ++ js }).length := by
        simpa using h
      rw [List.getD_eq_getElem _ _ this]
      simp
    rw [hget, List.set_set]
    simp
  · push_neg at h
    unfold bumpNext
    rw [List.set_eq_of_length_le h, List.set_eq_of_length_le h, List.set_eq_of_length_le h]

theorem bumpNext_last_single (X : List StateRec) (s : StateRec) (js : List Nat)
    {i : Nat} (hi : i = X.length) :
    bumpNext (X ++ [s]) i js = X ++ [{ s with next := s.next ++ js }] := by
  subst hi
  have hb := bumpNext_at_cons X s [] js
  simpa using hb

theorem bumpNext_pair_fst (X : List StateRec) (a s : StateRec) (js : List Nat)
    {i : Nat} (hi : i = X.length) :
    bumpNext (X ++ [a, s]) i js = X ++ [{ a with next := a.next ++ js }, s] := by
  subst hi
  have hb := bumpNext_at_cons X a [s] js
  simpa using hb

theorem bumpNext_pair_snd (X : List StateRec) (a s : StateRec) (js : List Nat)
    {i : Nat} (hi : i = X.length + 1) :
    bumpNext (X ++ [a, s]) i js = X ++ [a, { s with next := s.next ++ js }] := by
  subst hi
  have h : X ++ [a, s] = (X ++ [a]) ++ s :: [] := by simp
  have h2 : X.length + 1 = (X ++ [a]).length := by simp
  rw [h, h2, bumpNext_at_cons]
  simp

theorem tokLoop_model (T : List Tok) :
    ∀ (arena : List StateRec) (prev : Nat), prev < arena.length →
    addEdge (tokLoop T prev arena).1 (tokLoop T prev arena).2 1
      = bumpNext arena prev (exitOf arena.length T) ++ modelStates arena.length T := by
  induction T with
  | nil =>
    intro arena prev h
    simp [tokLoop, modelStates, exitOf, addEdge_eq_bump]
  | cons t rest ih =>
    intro arena prev h
    match t with
    | Tok.plain c =>
      simp only [tokLoop]
      have hAlen : (bumpNext arena prev [arena.length]).length = arena.length := by simp
      have step1 : addEdge (arena ++ [⟨atomKind c, [], none⟩]) prev arena.length
          = bumpNext arena prev [arena.length] ++ [⟨atomKind c, [], none⟩] := by
        rw [addEdge_eq_bump]
        exact bumpNext_append_left _ h _
      rw [step1]
      have hlt : arena.length < (bumpNext arena prev [arena.length]
          ++ [(⟨atomKind c, [], none⟩ : StateRec)]).length := by simp
      rw [ih _ _ hlt]
      have hlen : (bumpNext arena prev [arena.length]
          ++ [(⟨atomKind c, [], none⟩ : StateRec)]).length = arena.length + 1 := by simp
      rw [hlen, bumpNext_last_single _ _ _ hAlen.symm]
      simp [modelStates, blockOf, exitOf, entryEdges, tokSize]
    | Tok.star c =>
      simp only [tokLoop]
      have step1 : addEdge (addEdge (addEdge
            (arena ++ [⟨atomKind c, [], none⟩, ⟨Kind.star, [], some arena.length⟩])
            prev arena.length) arena.length (arena.length + 1)) prev (arena.length + 1)
          = bumpNext arena prev [arena.length, arena.length + 1]
            ++ [⟨atomKind c, [arena.length + 1], none⟩,
                ⟨Kind.star, [], some arena.length⟩] := by
        simp only [addEdge_eq_bump]
        rw [bumpNext_append_left _ h]
        rw [bumpNext_pair_fst _ _ _ _ (by simp)]
        rw [bumpNext_append_left _ (by simpa using h), bumpNext_bumpNext]
        simp
      rw [step1]
      have hlt : arena.length + 1
          < (bumpNext arena prev [arena.length, arena.length + 1]
            ++ [(⟨atomKind c, [arena.length + 1], none⟩ : StateRec),
                ⟨Kind.star, [], some arena.length⟩]).length := by simp
      rw [ih _ _ hlt]
      have hlen : (bumpNext arena prev [arena.length, arena.length + 1]
          ++ [(⟨atomKind c, [arena.length + 1], none⟩ : StateRec),
              ⟨Kind.star, [], some arena.length⟩]).length = arena.length + 2 := by simp
      rw [hlen, bumpNext_pair_snd _ _ _ _ (by simp)]
      simp [modelStates, blockOf, exitOf, entryEdges, tokSize]
    | Tok.plus c =>
      simp only [tokLoop]
      have step1 : addEdge (addEdge
            (arena ++ [⟨atomKind c, [], none⟩, ⟨Kind.plus, [], some arena.length⟩])
            prev arena.length) arena.length (arena.length + 1)
          = bumpNext arena prev [arena.length]
            ++ [⟨atomKind c, [arena.length + 1], none⟩,
                ⟨Kind.plus, [], some arena.length⟩] := by
        simp only [addEdge_eq_bump]
        rw [bumpNext_append_left _ h]
        rw [bumpNext_pair_fst _ _ _ _ (by simp)]
        simp
      rw [step1]
      have hlt : arena.length + 1
          < (bumpNext arena prev [arena.length]
            ++ [(⟨atomKind c, [arena.length + 1], none⟩ : StateRec),
                ⟨Kind.plus, [], some arena.length⟩]).length := by simp
      rw [ih _ _ hlt]
      have hlen : (bumpNext arena prev [arena.length]
          ++ [(⟨atomKind c, [arena.length + 1], none⟩ : StateRec),
              ⟨Kind.plus, [], some arena.length⟩]).length = arena.length + 2 := by simp
      rw [hlen, bumpNext_pair_snd _ _ _ _ (by simp)]
      simp [modelStates, blockOf, exitOf, entryEdges, tokSize]

/-- The arena built by `RegexFSM.__init__` is exactly the closed-form model
arena of the pattern's token list. -/
theorem build_model (p : String) :
    (build p).states = modelArena (tokens p.toList) := by
  show addEdge (buildLoop p.toList 0 _).1 (buildLoop p.toList 0 _).2 1 = _
  rw [buildLoop_eq_tokLoop]
  rw [tokLoop_model (tokens p.toList)
    [⟨Kind.start, [], none⟩, ⟨Kind.termination, [], none⟩] 0 (by simp)]
  rfl

/-! ## Correctness of the worklist epsilon closure

`closure` computes exactly the set of states reachable through outgoing
transitions of epsilon-capable (`Start`/`Star`/`Plus`) states. -/

/-- One epsilon transition: an outgoing edge of an epsilon-capable state. -/
def epsStep (fsm : RegexFSM) (i j : Nat) : Prop :=
  isEpsK (getS fsm i).kind = true ∧ j ∈ (getS fsm i).next

/-- Reachability via epsilon transitions only. -/
def epsReach (fsm : RegexFSM) : Nat → Nat → Prop :=
  Relation.ReflTransGen (epsStep fsm)

/-- All indices appearing on some `next_states` list. -/
def targets (fsm : RegexFSM) : Finset Nat :=
  fsm.states.foldr (fun s acc => s.next.toFinset ∪ acc) ∅

theorem mem_targets_of_mem_next {l : List StateRec} {s : StateRec} (hs : s ∈ l)
    {j : Nat} (hj : j ∈ s.next) :
    j ∈ l.foldr (fun s acc => s.next.toFinset ∪ acc) ∅ := by
  induction l with
  | nil => cases hs
  | cons a l ih =>
    rcases List.mem_cons.mp hs with h | h
    · subst h
      simp [List.foldr, List.mem_toFinset.mpr hj]
    · simp [List.foldr, ih h]

theorem next_subset_targets (fsm : RegexFSM) (i : Nat) :
    ∀ j ∈ (getS fsm i).next, j ∈ targets fsm := by
  intro j hj
  by_cases h : i < fsm.states.length
  · have hmem : fsm.states.getD i dfltState ∈ fsm.states := by
      rw [List.getD_eq_getElem _ _ h]
      exact List.getElem_mem h
    exact mem_targets_of_mem_next hmem hj
  · push_neg at h
    have : getS fsm i = dfltState := by
      unfold getS
      rw [List.getD_eq_default _ _ h]
    rw [this] at hj
    cases hj

theorem foldr_targets_card_le (l : List StateRec) :
    (l.foldr (fun s acc => s.next.toFinset ∪ acc) (∅ : Finset Nat)).card
      ≤ (l.map fun s => s.next.length).sum := by
  induction l with
  | nil => simp
  | cons s l ih =>
    calc ((s.next.toFinset ∪ l.foldr (fun s acc => s.next.toFinset ∪ acc)
            (∅ : Finset Nat)).card)
        ≤ s.next.toFinset.card
            + (l.foldr (fun s acc => s.next.toFinset ∪ acc) (∅ : Finset Nat)).card :=
          Finset.card_union_le _ _
      _ ≤ s.next.length + ((l.map fun s => s.next.length).sum) :=
          Nat.add_le_add (List.toFinset_card_le _) ih
      _ = (((s :: l).map fun s => s.next.length).sum) := by simp

theorem targets_card_le (fsm : RegexFSM) : (targets fsm).card ≤ totalEdges fsm :=
  foldr_targets_card_le fsm.states

theorem pushNew_res_mem (ns : List Nat) :
    ∀ (stack res : List Nat) (x : Nat),
    x ∈ (pushNew ns stack res).2 ↔ x ∈ res ∨ x ∈ ns := by
  induction ns with
  | nil => intro stack res x; simp [pushNew]
  | cons n ns ih =>
    intro stack res x
    by_cases h : n ∈ res
    · rw [pushNew, if_pos h, ih]
      constructor
      · rintro (hx | hx)
        · exact Or.inl hx
        · exact Or.inr (List.mem_cons_of_mem _ hx)
      · rintro (hx | hx)
        · exact Or.inl hx
        · rcases List.mem_cons.mp hx with rfl | hx
          · exact Or.inl h
          · exact Or.inr hx
    · rw [pushNew, if_neg h, ih]
      constructor
      · rintro (hx | hx)
        · rcases List.mem_cons.mp hx with rfl | hx
          · exact Or.inr (List.mem_cons_self _ _)
          · exact Or.inl hx
        · exact Or.inr (List.mem_cons_of_mem _ hx)
      · rintro (hx | hx)
        · exact Or.inl (List.mem_cons_of_mem _ hx)
        · rcases List.mem_cons.mp hx with rfl | hx
          · exact Or.inl (List.mem_cons_self _ _)
          · exact Or.inr hx

theorem pushNew_stack_mem (ns : List Nat) :
    ∀ (stack res : List Nat) (x : Nat),
    x ∈ (pushNew ns stack res).1 ↔ x ∈ stack ∨ (x ∈ ns ∧ x ∉ res) := by
  induction ns with
  | nil => intro stack res x; simp [pushNew]
  | cons n ns ih =>
    intro stack res x
    by_cases h : n ∈ res
    · rw [pushNew, if_pos h, ih]
      constructor
      · rintro (hx | ⟨hx1, hx2⟩)
        · exact Or.inl hx
        · exact Or.inr ⟨List.mem_cons_of_mem _ hx1, hx2⟩
      · rintro (hx | ⟨hx1, hx2⟩)
        · exact Or.inl hx
        · rcases List.mem_cons.mp hx1 with rfl | hx1
          · exact absurd h hx2
          · exact Or.inr ⟨hx1, hx2⟩
    · rw [pushNew, if_neg h, ih]
      constructor
      · rintro (hx | ⟨hx1, hx2⟩)
        · rcases List.mem_cons.mp hx with rfl | hx
          · exact Or.inr ⟨List.mem_cons_self _ _, h⟩
          · exact Or.inl hx
        · refine Or.inr ⟨List.mem_cons_of_mem _ hx1, fun hc => hx2 ?_⟩
          exact List.mem_cons_of_mem _ hc
      · rintro (hx | ⟨hx1, hx2⟩)
        · exact Or.inl (List.mem_cons_of_mem _ hx)
        · rcases List.mem_cons.mp hx1 with rfl | hx1
          · exact Or.inl (List.mem_cons_self _ _)
          · by_cases hxn : x = n
            · subst hxn
              exact Or.inl (List.mem_cons_self _ _)
            · refine Or.inr ⟨hx1, fun hc => ?_⟩
              rcases List.mem_cons.mp hc with h1 | h1
              · exact hxn h1
              · exact hx2 h1

theorem pushNew_count (ns : List Nat) :
    ∀ (stack res : List Nat),
    (pushNew ns stack res).1.length + res.toFinset.card
      = stack.length + (pushNew ns stack res).2.toFinset.card := by
  induction ns with
  | nil => intro stack res; simp [pushNew]
  | cons n ns ih =>
    intro stack res
    by_cases h : n ∈ res
    · rw [pushNew, if_pos h]
      exact ih stack res
    · rw [pushNew, if_neg h]
      have := ih (n :: stack) (n :: res)
      have hcard : (n :: res).toFinset.card = res.toFinset.card + 1 := by
        simp only [List.toFinset_cons]
        rw [Finset.card_insert_of_not_mem (by simpa using h)]
      simp only [List.length_cons, hcard] at this
      omega

theorem pushNew_measure (ns : List Nat) (stack res : List Nat) (U : Finset Nat)
    (hsub : ∀ j ∈ ns, j ∈ U) :
    (U \ (pushNew ns stack res).2.toFinset).card + (pushNew ns stack res).1.length
      ≤ (U \ res.toFinset).card + stack.length := by
  set res2 := (pushNew ns stack res).2 with hres2
  set stack2 := (pushNew ns stack res).1 with hstack2
  have hsubset : res.toFinset ⊆ res2.toFinset := by
    intro x hx
    rw [List.mem_toFinset] at hx ⊢
    exact (pushNew_res_mem ns stack res x).mpr (Or.inl hx)
  have hA : (U \ res.toFinset) \ (U \ res2.toFinset) = res2.toFinset \ res.toFinset := by
    ext x
    simp only [Finset.mem_sdiff, List.mem_toFinset]
    constructor
    · rintro ⟨⟨hU, hr⟩, hn⟩
      push_neg at hn
      exact ⟨hn hU, hr⟩
    · rintro ⟨hr2, hr⟩
      have hx2 := (pushNew_res_mem ns stack res x).mp hr2
      rcases hx2 with hx2 | hx2
      · exact absurd hx2 hr
      · exact ⟨⟨hsub x hx2, hr⟩, fun hc => hc.2 ((pushNew_res_mem ns stack res x).mpr
          (Or.inr hx2))⟩
  have hsub2 : U \ res2.toFinset ⊆ U \ res.toFinset :=
    Finset.sdiff_subset_sdiff (le_refl _) hsubset
  have hkey := Finset.card_sdiff_add_card_eq_card hsub2
  rw [hA] at hkey
  have hcard2 : (res2.toFinset \ res.toFinset).card
      = res2.toFinset.card - res.toFinset.card := Finset.card_sdiff hsubset
  have hcard3 : res.toFinset.card ≤ res2.toFinset.card := Finset.card_le_card hsubset
  have hcount := pushNew_count ns stack res
  rw [← hres2, ← hstack2] at hcount
  omega

theorem closureAux_mono (fsm : RegexFSM) :
    ∀ (fuel : Nat) (stack res : List Nat), ∀ x ∈ res, x ∈ closureAux fsm fuel stack res := by
  intro fuel
  induction fuel with
  | zero => intro stack res x hx; simpa [closureAux] using hx
  | succ fuel ih =>
    intro stack res x hx
    match stack with
    | [] => simpa [closureAux] using hx
    | st :: stack =>
      rw [closureAux]
      by_cases h : isEpsK (getS fsm st).kind
      · rw [if_pos h]
        exact ih _ _ x ((pushNew_res_mem _ _ _ x).mpr (Or.inl hx))
      · rw [if_neg h]
        exact ih _ _ x hx

theorem closureAux_sound (fsm : RegexFSM) (R : Nat → Prop)
    (hR : ∀ i, R i → isEpsK (getS fsm i).kind = true → ∀ j ∈ (getS fsm i).next, R j) :
    ∀ (fuel : Nat) (stack res : List Nat),
    (∀ i ∈ stack, R i) → (∀ i ∈ res, R i) →
    ∀ x ∈ closureAux fsm fuel stack res, R x := by
  intro fuel
  induction fuel with
  | zero =>
    intro stack res _ hres x hx
    exact hres x (by simpa [closureAux] using hx)
  | succ fuel ih =>
    intro stack res hstack hres x hx
    match stack with
    | [] => exact hres x (by simpa [closureAux] using hx)
    | st :: stack =>
      rw [closureAux] at hx
      by_cases h : isEpsK (getS fsm st).kind
      · rw [if_pos h] at hx
        have hnext : ∀ j ∈ (getS fsm st).next, R j :=
          hR st (hstack st (List.mem_cons_self _ _)) h
        refine ih _ _ ?_ ?_ x hx
        · intro i hi
          rcases (pushNew_stack_mem _ _ _ i).mp hi with hi | ⟨hi, _⟩
          · exact hstack i (List.mem_cons_of_mem _ hi)
          · exact hnext i hi
        · intro i hi
          rcases (pushNew_res_mem _ _ _ i).mp hi with hi | hi
          · exact hres i hi
          · exact hnext i hi
      · rw [if_neg h] at hx
        exact ih _ _ (fun i hi => hstack i (List.mem_cons_of_mem _ hi)) hres x hx

theorem closureAux_closed (fsm : RegexFSM) :
    ∀ (fuel : Nat) (stack res : List Nat),
    (∀ i ∈ stack, i ∈ res) →
    (∀ i ∈ res, i ∉ stack → isEpsK (getS fsm i).kind = true →
      ∀ j ∈ (getS fsm i).next, j ∈ res) →
    (targets fsm \ res.toFinset).card + stack.length ≤ fuel →
    ∀ x ∈ closureAux fsm fuel stack res, isEpsK (getS fsm x).kind = true →
    ∀ j ∈ (getS fsm x).next, j ∈ closureAux fsm fuel stack res := by
  intro fuel
  induction fuel with
  | zero =>
    intro stack res hsub hclosed hb x hx heps j hj
    have hstack : stack = [] := by
      cases stack with
      | nil => rfl
      | cons a l => simp at hb
    subst hstack
    simp only [closureAux] at hx ⊢
    exact hclosed x hx (by simp) heps j hj
  | succ fuel ih =>
    intro stack res hsub hclosed hb x hx heps j hj
    match stack with
    | [] =>
      simp only [closureAux] at hx ⊢
      exact hclosed x hx (by simp) heps j hj
    | st :: stack =>
      rw [closureAux] at hx ⊢
      by_cases h : isEpsK (getS fsm st).kind
      · rw [if_pos h] at hx ⊢
        have hstin : st ∈ res := hsub st (List.mem_cons_self _ _)
        refine ih _ _ ?_ ?_ ?_ x hx heps j hj
        · intro i hi
          rcases (pushNew_stack_mem _ _ _ i).mp hi with hi | ⟨hi, _⟩
          · exact (pushNew_res_mem _ _ _ i).mpr
              (Or.inl (hsub i (List.mem_cons_of_mem _ hi)))
          · exact (pushNew_res_mem _ _ _ i).mpr (Or.inr hi)
        · intro i hi hist hieps k hk
          rcases (pushNew_res_mem _ _ _ i).mp hi with hires | hins
          · by_cases hieq : i = st
            · subst hieq
              exact (pushNew_res_mem _ _ _ k).mpr (Or.inr hk)
            · have : i ∉ st :: stack := by
                intro hc
                rcases List.mem_cons.mp hc with h1 | h1
                · exact hieq h1
                · exact hist ((pushNew_stack_mem _ _ _ i).mpr (Or.inl h1))
              exact (pushNew_res_mem _ _ _ k).mpr
                (Or.inl (hclosed i hires this hieps k hk))
          · by_cases hires : i ∈ res
            · by_cases hieq : i = st
              · subst hieq
                exact (pushNew_res_mem _ _ _ k).mpr (Or.inr hk)
              · have : i ∉ st :: stack := by
                  intro hc
                  rcases List.mem_cons.mp hc with h1 | h1
                  · exact hieq h1
                  · exact hist ((pushNew_stack_mem _ _ _ i).mpr (Or.inl h1))
                exact (pushNew_res_mem _ _ _ k).mpr
                  (Or.inl (hclosed i hires this hieps k hk))
            · exact absurd ((pushNew_stack_mem _ _ _ i).mpr (Or.inr ⟨hins, hires⟩)) hist
        · have hmeas := pushNew_measure (getS fsm st).next stack res (targets fsm)
            (next_subset_targets fsm st)
          simp only [List.length_cons] at hb
          omega
      · rw [if_neg h] at hx ⊢
        refine ih _ _ (fun i hi => hsub i (List.mem_cons_of_mem _ hi)) ?_ ?_ x hx heps j hj
        · intro i hi hist hieps k hk
          by_cases hieq : i = st
          · subst hieq
            rw [hieps] at h
            exact absurd rfl h
          · have : i ∉ st :: stack := by
              intro hc
              rcases List.mem_cons.mp hc with h1 | h1
              · exact hieq h1
              · exact hist h1
            exact hclosed i hi this hieps k hk
        · simp only [List.length_cons] at hb
          omega

/-- The worklist closure computes exactly epsilon reachability from the
given set. -/
theorem mem_closureF (fsm : RegexFSM) (s : List Nat) (x : Nat) :
    x ∈ closureF fsm s ↔ ∃ i ∈ s, epsReach fsm i x := by
  constructor
  · intro hx
    refine closureAux_sound fsm (fun x => ∃ i ∈ s, epsReach fsm i x) ?_ _ _ _ ?_ ?_ x hx
    · rintro i ⟨i0, hi0, hreach⟩ heps j hj
      exact ⟨i0, hi0, Relation.ReflTransGen.tail hreach ⟨heps, hj⟩⟩
    · exact fun i hi => ⟨i, hi, Relation.ReflTransGen.refl⟩
    · exact fun i hi => ⟨i, hi, Relation.ReflTransGen.refl⟩
  · rintro ⟨i, hi, hreach⟩
    have hclosed := closureAux_closed fsm (s.length + totalEdges fsm + 1) s s
      (fun i hi => hi) (fun i hi hni _ _ _ => absurd hi hni)
      (by
        have h1 : (targets fsm \ s.toFinset).card ≤ (targets fsm).card :=
          Finset.card_le_card (Finset.sdiff_subset)
        have h2 := targets_card_le fsm
        omega)
    induction hreach with
    | refl => exact closureAux_mono fsm _ s s i hi
    | tail hab hbc ihr =>
      exact hclosed _ ihr hbc.1 _ hbc.2
theorem epsReach_of_not_eps {fsm : RegexFSM} {i j : Nat}
    (h : ¬ isEpsK (getS fsm i).kind = true) : epsReach fsm i j ↔ j = i := by
  constructor
  · intro hr
    rcases (Relation.ReflTransGen.cases_head hr) with h1 | ⟨k, hk, _⟩
    · exact h1.symm
    · exact absurd hk.1 h
  · rintro rfl
    exact Relation.ReflTransGen.refl

theorem epsReach_head {fsm : RegexFSM} {i j : Nat} (_ : isEpsK (getS fsm i).kind = true)
    (hr : epsReach fsm i j) : j = i ∨ ∃ k ∈ (getS fsm i).next, epsReach fsm k j := by
  rcases (Relation.ReflTransGen.cases_head hr) with h1 | ⟨k, hk, hkr⟩
  · exact Or.inl h1.symm
  · exact Or.inr ⟨k, hk.2, hkr⟩

/-- A closure of a set without epsilon-capable states adds nothing. -/
theorem mem_closureF_no_eps {fsm : RegexFSM} {s : List Nat}
    (h : ∀ i ∈ s, ¬ isEpsK (getS fsm i).kind = true) (x : Nat) :
    x ∈ closureF fsm s ↔ x ∈ s := by
  rw [mem_closureF]
  constructor
  · rintro ⟨i, hi, hr⟩
    rw [epsReach_of_not_eps (h i hi)] at hr
    rwa [hr]
  · intro hx
    exact ⟨x, hx, Relation.ReflTransGen.refl⟩

/-! ## Indexed access into the model arena -/

/-- Number of arena states contributed by a token list. -/
def sizeSum (T : List Tok) : Nat := (T.map tokSize).sum

@[simp] theorem sizeSum_nil : sizeSum [] = 0 := rfl

@[simp] theorem sizeSum_cons (t : Tok) (T : List Tok) :
    sizeSum (t :: T) = tokSize t + sizeSum T := by
  simp [sizeSum]

@[simp] theorem sizeSum_append (T1 T2 : List Tok) :
    sizeSum (T1 ++ T2) = sizeSum T1 + sizeSum T2 := by
  simp [sizeSum]

@[simp] theorem blockOf_length (b : Nat) (e : List Nat) (t : Tok) :
    (blockOf b e t).length = tokSize t := by
  cases t <;> simp [blockOf, tokSize]

@[simp] theorem modelStates_length (b : Nat) (T : List Tok) :
    (modelStates b T).length = sizeSum T := by
  induction T generalizing b with
  | nil => simp [modelStates]
  | cons t rest ih => simp [modelStates, ih]

@[simp] theorem modelArena_length (T : List Tok) :
    (modelArena T).length = 2 + sizeSum T := by
  simp [modelArena]
  omega

theorem modelStates_getD (T1 : List Tok) :
    ∀ (t : Tok) (T2 : List Tok) (b off : Nat), off < tokSize t →
    (modelStates b (T1 ++ t :: T2)).getD (sizeSum T1 + off) dfltState
      = (blockOf (b + sizeSum T1) (exitOf (b + sizeSum T1 + tokSize t) T2) t).getD off
          dfltState := by
  induction T1 with
  | nil =>
    intro t T2 b off hoff
    simp only [List.nil_append, modelStates, sizeSum_nil, Nat.zero_add, Nat.add_zero]
    rw [List.getD_append _ _ _ _ (by simpa using hoff)]
  | cons t0 T1 ih =>
    intro t T2 b off hoff
    have hidx : sizeSum (t0 :: T1) + off = tokSize t0 + (sizeSum T1 + off) := by
      simp [Nat.add_assoc]
    rw [hidx]
    simp only [List.cons_append, modelStates, List.append_eq]
    rw [List.getD_append_right _ _ _ _ (by simp)]
    have hsub : tokSize t0 + (sizeSum T1 + off) - (blockOf b
        (exitOf (b + tokSize t0) (T1 ++ t :: T2)) t0).length = sizeSum T1 + off := by
      simp
    rw [hsub, ih t T2 (b + tokSize t0) off hoff]
    have h1 : b + tokSize t0 + sizeSum T1 = b + sizeSum (t0 :: T1) := by
      simp only [sizeSum_cons]
      omega
    rw [h1]

theorem getS_modelArena (T1 : List Tok) (t : Tok) (T2 : List Tok) (off : Nat)
    (hoff : off < tokSize t) :
    getS ⟨modelArena (T1 ++ t :: T2)⟩ (2 + sizeSum T1 + off)
      = (blockOf (2 + sizeSum T1) (exitOf (2 + sizeSum T1 + tokSize t) T2) t).getD off
          dfltState := by
  have hidx : 2 + sizeSum T1 + off = (sizeSum T1 + off) + 2 := by omega
  unfold getS modelArena
  rw [hidx]
  show (modelStates 2 (T1 ++ t :: T2)).getD (sizeSum T1 + off) dfltState = _
  rw [modelStates_getD T1 t T2 2 off hoff]

@[simp] theorem getS_modelArena_start (T : List Tok) :
    getS ⟨modelArena T⟩ 0 = ⟨Kind.start, exitOf 2 T, none⟩ := rfl

@[simp] theorem getS_modelArena_term (T : List Tok) :
    getS ⟨modelArena T⟩ 1 = ⟨Kind.termination, [], none⟩ := rfl

theorem getS_modelArena_oob (T : List Tok) (i : Nat) (hi : 2 + sizeSum T ≤ i) :
    getS ⟨modelArena T⟩ i = dfltState := by
  unfold getS
  apply List.getD_eq_default
  simpa using hi

/-- Splitting an arena offset into a token position and an in-block offset. -/
theorem index_decompose (T : List Tok) :
    ∀ k, k < sizeSum T →
    ∃ T1 t T2 off, T = T1 ++ t :: T2 ∧ off < tokSize t ∧ k = sizeSum T1 + off := by
  induction T with
  | nil => intro k hk; simp [sizeSum] at hk
  | cons t rest ih =>
    intro k hk
    by_cases h : k < tokSize t
    · exact ⟨[], t, rest, k, by simp, h, by simp⟩
    · push_neg at h
      have hk2 : k - tokSize t < sizeSum rest := by
        simp only [sizeSum_cons] at hk
        omega
      obtain ⟨T1, t', T2, off, hT, hoff, hidx⟩ := ih (k - tokSize t) hk2
      refine ⟨t :: T1, t', T2, off, by simp [hT], hoff, ?_⟩
      simp only [sizeSum_cons]
      omega

theorem atomKind_not_eps (c : Char) : isEpsK (atomKind c) = false := by
  unfold atomKind
  by_cases h : c = '.' <;> simp [h, isEpsK]

theorem atomKind_ne_star (c : Char) : atomKind c ≠ Kind.star := by
  unfold atomKind
  by_cases h : c = '.' <;> simp [h]

theorem atomKind_ne_plus (c : Char) : atomKind c ≠ Kind.plus := by
  unfold atomKind
  by_cases h : c = '.' <;> simp [h]

/-! ## Structural invariants of the built arena -/

theorem exitOf_mem {b : Nat} {T : List Tok} {j : Nat} (hj : j ∈ exitOf b T) :
    j = 1 ∨ j = b ∨ j = b + 1 := by
  match T with
  | [] => simp [exitOf] at hj; omega
  | t :: rest =>
    match t with
    | Tok.plain c => simp [exitOf, entryEdges] at hj; omega
    | Tok.star c => simp [exitOf, entryEdges] at hj; omega
    | Tok.plus c => simp [exitOf, entryEdges] at hj; omega

/-- Every transition of the model arena targets the termination state or a
state with index at least 2: the start state is never a target. -/
theorem next_mem_characterize (T : List Tok) (i j : Nat)
    (hj : j ∈ (getS ⟨modelArena T⟩ i).next) : j = 1 ∨ 2 ≤ j := by
  match i with
  | 0 =>
    rw [getS_modelArena_start] at hj
    rcases exitOf_mem hj with h | h | h <;> omega
  | 1 =>
    rw [getS_modelArena_term] at hj
    cases hj
  | (k + 2) =>
    by_cases hk : k < sizeSum T
    · obtain ⟨T1, t, T2, off, hT, hoff, hidx⟩ := index_decompose T k hk
      subst hT
      have : k + 2 = 2 + sizeSum T1 + off := by omega
      rw [this] at hj
      rw [getS_modelArena T1 t T2 off hoff] at hj
      match t with
      | Tok.plain c =>
        have hoff0 : off = 0 := by
          simp [tokSize] at hoff
          omega
        subst hoff0
        simp only [blockOf, List.getD_cons_zero] at hj
        rcases exitOf_mem hj with h | h | h <;> omega
      | Tok.star c =>
        match off with
        | 0 =>
          simp only [blockOf, List.getD_cons_zero] at hj
          simp at hj
          omega
        | 1 =>
          simp only [blockOf, List.getD_cons_succ, List.getD_cons_zero] at hj
          rcases exitOf_mem hj with h | h | h <;> omega
      | Tok.plus c =>
        match off with
        | 0 =>
          simp only [blockOf, List.getD_cons_zero] at hj
          simp at hj
          omega
        | 1 =>
          simp only [blockOf, List.getD_cons_succ, List.getD_cons_zero] at hj
          rcases exitOf_mem hj with h | h | h <;> omega
    · rw [getS_modelArena_oob T (k + 2) (by omega)] at hj
      cases hj

theorem zero_not_target (T : List Tok) (i : Nat) :
    0 ∉ (getS ⟨modelArena T⟩ i).next := by
  intro hj
  rcases next_mem_characterize T i 0 hj with h | h <;> omega

/-- Every `Star`/`Plus` state of the model arena carries a `loop_state`
reference to the atom state directly before it. -/
theorem quant_loop (T : List Tok) (i : Nat)
    (hq : (getS ⟨modelArena T⟩ i).kind = Kind.star
      ∨ (getS ⟨modelArena T⟩ i).kind = Kind.plus) :
    ∃ c, (getS ⟨modelArena T⟩ i).loop = some (i - 1)
      ∧ (getS ⟨modelArena T⟩ (i - 1)).kind = atomKind c
      ∧ 2 ≤ i ∧ i < 2 + sizeSum T := by
  match i with
  | 0 => simp [getS_modelArena_start] at hq
  | 1 => simp [getS_modelArena_term] at hq
  | (k + 2) =>
    by_cases hk : k < sizeSum T
    · obtain ⟨T1, t, T2, off, hT, hoff, hidx⟩ := index_decompose T k hk
      subst hT
      have hi2 : k + 2 = 2 + sizeSum T1 + off := by omega
      rw [hi2] at hq ⊢
      rw [getS_modelArena T1 t T2 off hoff] at hq
      match t with
      | Tok.plain c =>
        have hoff0 : off = 0 := by
          simp [tokSize] at hoff
          omega
        subst hoff0
        simp only [blockOf, List.getD_cons_zero] at hq
        rcases hq with h | h
        · exact absurd h (atomKind_ne_star c)
        · exact absurd h (atomKind_ne_plus c)
      | Tok.star c =>
        match off with
        | 0 =>
          simp only [blockOf, List.getD_cons_zero] at hq
          rcases hq with h | h
          · exact absurd h (atomKind_ne_star c)
          · exact absurd h (atomKind_ne_plus c)
        | 1 =>
          refine ⟨c, ?_, ?_, by omega, by simp; omega⟩
          · rw [getS_modelArena T1 (Tok.star c) T2 1 hoff]
            simp [blockOf]
          · have : 2 + sizeSum T1 + 1 - 1 = 2 + sizeSum T1 + 0 := by omega
            rw [this, getS_modelArena T1 (Tok.star c) T2 0 (by simp [tokSize])]
            simp [blockOf]
      | Tok.plus c =>
        match off with
        | 0 =>
          simp only [blockOf, List.getD_cons_zero] at hq
          rcases hq with h | h
          · exact absurd h (atomKind_ne_star c)
          · exact absurd h (atomKind_ne_plus c)
        | 1 =>
          refine ⟨c, ?_, ?_, by omega, by simp; omega⟩
          · rw [getS_modelArena T1 (Tok.plus c) T2 1 hoff]
            simp [blockOf]
          · have : 2 + sizeSum T1 + 1 - 1 = 2 + sizeSum T1 + 0 := by omega
            rw [this, getS_modelArena T1 (Tok.plus c) T2 0 (by simp [tokSize])]
            simp [blockOf]
    · exfalso
      have := getS_modelArena_oob T (k + 2) (by omega)
      rw [this] at hq
      simp [dfltState] at hq

/-! ## Epsilon reachability from the start state -/

/-- A token list made of star tokens only. -/
def allStar (T : List Tok) : Prop := ∀ t ∈ T, ∃ c, t = Tok.star c

theorem not_allStar_decompose (T : List Tok) (h : ¬ allStar T) :
    ∃ (cs : List Char) (t : Tok) (R : List Tok),
      T = (cs.map Tok.star) ++ t :: R ∧ ∀ c, t ≠ Tok.star c := by
  induction T with
  | nil => exact absurd (fun t ht => absurd ht (List.not_mem_nil t)) h
  | cons t rest ih =>
    by_cases hstar : ∃ c, t = Tok.star c
    · obtain ⟨c, rfl⟩ := hstar
      have hrest : ¬ allStar rest := by
        intro hr
        exact h (fun t ht => by
          rcases List.mem_cons.mp ht with rfl | ht
          · exact ⟨c, rfl⟩
          · exact hr t ht)
      obtain ⟨cs, t', R, hT, ht'⟩ := ih hrest
      exact ⟨c :: cs, t', R, by simp [hT], ht'⟩
    · push_neg at hstar
      exact ⟨[], t, rest, by simp, hstar⟩

theorem sizeSum_map_star (cs : List Char) : sizeSum (cs.map Tok.star) = 2 * cs.length := by
  induction cs with
  | nil => simp
  | cons c cs ih => simp [tokSize, ih]; omega

theorem map_star_split (cs : List Char) (m : Nat) (hm : m < cs.length) :
    cs.map Tok.star = ((cs.take m).map Tok.star)
      ++ Tok.star cs[m] :: ((cs.drop (m + 1)).map Tok.star) := by
  have h1 : cs.take m ++ cs[m] :: cs.drop (m + 1) = cs := by
    rw [List.getElem_cons_drop cs m hm, List.take_append_drop]
  conv_lhs => rw [← h1]
  rw [List.map_append, List.map_cons]

theorem star_region_atom (cs : List Char) (t : Tok) (R : List Tok) (m : Nat)
    (hm : m < cs.length) :
    getS ⟨modelArena (cs.map Tok.star ++ t :: R)⟩ (2 + 2 * m)
      = ⟨atomKind cs[m], [2 + 2 * m + 1], none⟩ := by
  rw [map_star_split cs m hm]
  have hsz : sizeSum ((cs.take m).map Tok.star) = 2 * m := by
    rw [sizeSum_map_star]
    simp [List.length_take]
    omega
  have hidx : 2 + 2 * m = 2 + sizeSum ((cs.take m).map Tok.star) + 0 := by omega
  rw [List.append_assoc, List.cons_append, hidx,
    getS_modelArena _ (Tok.star cs[m]) _ 0 (by simp [tokSize])]
  simp [blockOf, hsz]

theorem star_region_star (cs : List Char) (t : Tok) (R : List Tok) (m : Nat)
    (hm : m < cs.length) :
    getS ⟨modelArena (cs.map Tok.star ++ t :: R)⟩ (2 + 2 * m + 1)
      = ⟨Kind.star,
          exitOf (2 + 2 * m + 2) (((cs.drop (m + 1)).map Tok.star) ++ t :: R),
          some (2 + 2 * m)⟩ := by
  rw [map_star_split cs m hm]
  have hsz : sizeSum ((cs.take m).map Tok.star) = 2 * m := by
    rw [sizeSum_map_star]
    simp [List.length_take]
    omega
  have hidx : 2 + 2 * m + 1 = 2 + sizeSum ((cs.take m).map Tok.star) + 1 := by omega
  rw [List.append_assoc, List.cons_append, hidx,
    getS_modelArena _ (Tok.star cs[m]) _ 1 (by simp [tokSize])]
  simp only [blockOf, tokSize, List.getD_cons_succ, List.getD_cons_zero]
  have h2 : 2 + sizeSum ((cs.take m).map Tok.star) + 2 = 2 + 2 * m + 2 := by omega
  have h3 : 2 + sizeSum ((cs.take m).map Tok.star) = 2 + 2 * m := by omega
  rw [h2, h3]

theorem nonstar_entry_atom (cs : List Char) (t : Tok) (R : List Tok)
    (ht : ∀ c, t ≠ Tok.star c) :
    ∃ c, (getS ⟨modelArena (cs.map Tok.star ++ t :: R)⟩ (2 + 2 * cs.length)).kind
      = atomKind c := by
  have hsz : sizeSum (cs.map Tok.star) = 2 * cs.length := sizeSum_map_star cs
  have hidx : 2 + 2 * cs.length = 2 + sizeSum (cs.map Tok.star) + 0 := by omega
  rw [hidx, getS_modelArena _ t R 0 (by cases t <;> simp [tokSize])]
  match t with
  | Tok.plain c => exact ⟨c, by simp [blockOf]⟩
  | Tok.star c => exact absurd rfl (ht c)
  | Tok.plus c => exact ⟨c, by simp [blockOf]⟩

/-- Along epsilon transitions the automaton can only walk down the leading
run of star blocks; reaching past it requires consuming a character. -/
theorem epsReach_star_prefix (cs : List Char) (t : Tok) (R : List Tok)
    (ht : ∀ c, t ≠ Tok.star c) (j : Nat)
    (hr : epsReach ⟨modelArena (cs.map Tok.star ++ t :: R)⟩ 0 j) :
    j = 0 ∨ (∃ m, m < cs.length ∧ (j = 2 + 2 * m ∨ j = 2 + 2 * m + 1))
      ∨ j = 2 + 2 * cs.length := by
  induction hr with
  | refl => exact Or.inl rfl
  | tail hab hbc ih =>
    rename_i b j
    obtain ⟨heps, hnext⟩ := hbc
    rcases ih with rfl | ⟨m, hm, hb⟩ | rfl
    · rw [getS_modelArena_start] at hnext
      cases cs with
      | nil =>
        simp only [List.map_nil, List.nil_append] at hnext
        match t with
        | Tok.plain c =>
          simp [exitOf, entryEdges] at hnext
          subst hnext
          exact Or.inr (Or.inr (by simp))
        | Tok.star c => exact absurd rfl (ht c)
        | Tok.plus c =>
          simp [exitOf, entryEdges] at hnext
          subst hnext
          exact Or.inr (Or.inr (by simp))
      | cons c cs' =>
        simp only [List.map_cons, List.cons_append] at hnext
        simp [exitOf, entryEdges] at hnext
        rcases hnext with rfl | rfl
        · exact Or.inr (Or.inl ⟨0, by simp, Or.inl rfl⟩)
        · exact Or.inr (Or.inl ⟨0, by simp, Or.inr rfl⟩)
    · rcases hb with rfl | rfl
      · rw [star_region_atom cs t R m hm] at heps
        simp [atomKind_not_eps] at heps
      · rw [star_region_star cs t R m hm] at hnext
        simp only at hnext
        match hdrop : cs.drop (m + 1) with
        | [] =>
          have hlen : cs.length = m + 1 := by
            have := List.drop_eq_nil_iff.mp hdrop
            omega
          rw [hdrop] at hnext
          simp only [List.map_nil, List.nil_append] at hnext
          match t with
          | Tok.plain c =>
            simp [exitOf, entryEdges] at hnext
            subst hnext
            refine Or.inr (Or.inr (by omega))
          | Tok.star c => exact absurd rfl (ht c)
          | Tok.plus c =>
            simp [exitOf, entryEdges] at hnext
            subst hnext
            refine Or.inr (Or.inr (by omega))
        | c' :: l =>
          have hlen : m + 1 < cs.length := by
            have : cs.length - (m + 1) = (c' :: l).length := by
              rw [← hdrop]
              simp
            simp at this
            omega
          rw [hdrop] at hnext
          simp only [List.map_cons, List.cons_append] at hnext
          simp [exitOf, entryEdges] at hnext
          rcases hnext with rfl | rfl
          · exact Or.inr (Or.inl ⟨m + 1, hlen, Or.inl (by omega)⟩)
          · exact Or.inr (Or.inl ⟨m + 1, hlen, Or.inr (by omega)⟩)
    · obtain ⟨c, hc⟩ := nonstar_entry_atom cs t R ht
      rw [hc] at heps
      simp [atomKind_not_eps] at heps

/-- If the token list contains a plus token, the termination state is not
epsilon-reachable from the start state. -/
theorem plus_blocks_eps (T : List Tok) (hplus : ∃ c, Tok.plus c ∈ T) :
    ¬ epsReach ⟨modelArena T⟩ 0 1 := by
  obtain ⟨c, hc⟩ := hplus
  have hna : ¬ allStar T := by
    intro h
    obtain ⟨c', hc'⟩ := h _ hc
    cases hc'
  obtain ⟨cs, t, R, hT, ht⟩ := not_allStar_decompose T hna
  subst hT
  intro hr
  rcases epsReach_star_prefix cs t R ht 1 hr with h | ⟨m, _, h | h⟩ | h <;> omega

/-- On the empty input, `check_string` accepts exactly when the termination
state is epsilon-reachable from the start state. -/
theorem check_empty_iff (T : List Tok) :
    (RegexFSM.check_string ⟨modelArena T⟩ "" = true)
      ↔ epsReach ⟨modelArena T⟩ 0 1 := by
  unfold RegexFSM.check_string
  have hempty : ("" : String).toList = [] := rfl
  rw [hempty]
  simp only [List.foldl_nil, decide_eq_true_eq]
  constructor
  · intro h
    rw [mem_closureF] at h
    obtain ⟨i, hi, hr⟩ := h
    have hi2 : i ∈ closureF ⟨modelArena T⟩ [0] := List.mem_of_mem_erase hi
    rw [mem_closureF] at hi2
    obtain ⟨i0, hi0, hr0⟩ := hi2
    rcases List.mem_singleton.mp hi0 with rfl
    exact Relation.ReflTransGen.trans hr0 hr
  · intro hr
    rcases Relation.ReflTransGen.cases_head hr with h01 | ⟨k, hk, hkr⟩
    · exact absurd h01 (by decide)
    · have hk0 : k ≠ 0 := by
        intro h
        subst h
        exact zero_not_target T 0 hk.2
      have hkmem : k ∈ closureF ⟨modelArena T⟩ [0] := by
        rw [mem_closureF]
        exact ⟨0, List.mem_singleton.mpr rfl, Relation.ReflTransGen.single hk⟩
      have hkmem2 : k ∈ (closureF ⟨modelArena T⟩ [0]).erase 0 :=
        (List.mem_erase_of_ne hk0).mpr hkmem
      rw [mem_closureF]
      exact ⟨k, hkmem2, hkr⟩

/-! ## Membership view of the character step -/

theorem mem_insertL (n : Nat) (l : List Nat) (x : Nat) :
    x ∈ insertL n l ↔ x = n ∨ x ∈ l := by
  unfold insertL
  by_cases h : n ∈ l
  · rw [if_pos h]
    constructor
    · exact Or.inr
    · rintro (rfl | hx)
      · exact h
      · exact hx
  · rw [if_neg h]
    exact List.mem_cons

theorem mem_foldl_insertL (l : List Nat) :
    ∀ (acc : List Nat) (x : Nat),
    x ∈ l.foldl (fun a j => insertL j a) acc ↔ x ∈ acc ∨ x ∈ l := by
  induction l with
  | nil => intro acc x; simp
  | cons n l ih =>
    intro acc x
    rw [List.foldl_cons, ih, mem_insertL]
    constructor
    · rintro ((rfl | hx) | hx)
      · exact Or.inr (List.mem_cons_self _ _)
      · exact Or.inl hx
      · exact Or.inr (List.mem_cons_of_mem _ hx)
    · rintro (hx | hx)
      · exact Or.inl (Or.inr hx)
      · rcases List.mem_cons.mp hx with rfl | hx
        · exact Or.inl (Or.inl rfl)
        · exact Or.inr hx

/-- The condition under which the character step admits `x` from the active
state `i`. -/
def stepCond (fsm : RegexFSM) (ch : Char) (i x : Nat) : Prop :=
  (checkSelf (getS fsm i).kind ch = true ∧ x ∈ (getS fsm i).next)
    ∨ (x = i ∧ ((getS fsm i).kind = Kind.star ∨ (getS fsm i).kind = Kind.plus)
        ∧ loopCheck fsm (getS fsm i) ch = true)

theorem mem_stepChar_aux (fsm : RegexFSM) (ch : Char) (act : List Nat) :
    ∀ (acc : List Nat) (x : Nat),
    x ∈ act.foldl
      (fun acc i =>
        let st := getS fsm i
        let acc1 := if checkSelf st.kind ch then st.next.foldl (fun a j => insertL j a) acc
          else acc
        if (st.kind = Kind.star ∨ st.kind = Kind.plus) ∧ loopCheck fsm st ch = true
          then insertL i acc1 else acc1) acc
      ↔ x ∈ acc ∨ ∃ i ∈ act, stepCond fsm ch i x := by
  induction act with
  | nil => intro acc x; simp
  | cons i act ih =>
    intro acc x
    rw [List.foldl_cons, ih]
    have hone : ∀ (x : Nat),
        (x ∈ (let st := getS fsm i
          let acc1 := if checkSelf st.kind ch then
              st.next.foldl (fun a j => insertL j a) acc
            else acc
          if (st.kind = Kind.star ∨ st.kind = Kind.plus) ∧ loopCheck fsm st ch = true
            then insertL i acc1 else acc1))
          ↔ x ∈ acc ∨ stepCond fsm ch i x := by
      intro y
      simp only
      by_cases hq : ((getS fsm i).kind = Kind.star ∨ (getS fsm i).kind = Kind.plus)
          ∧ loopCheck fsm (getS fsm i) ch = true
      · rw [if_pos hq, mem_insertL]
        by_cases hc : checkSelf (getS fsm i).kind ch
        · rw [if_pos hc, mem_foldl_insertL]
          unfold stepCond
          constructor
          · rintro (rfl | hy | hy)
            · exact Or.inr (Or.inr ⟨rfl, hq⟩)
            · exact Or.inl hy
            · exact Or.inr (Or.inl ⟨hc, hy⟩)
          · rintro (hy | ⟨_, hy⟩ | ⟨rfl, _⟩)
            · exact Or.inr (Or.inl hy)
            · exact Or.inr (Or.inr hy)
            · exact Or.inl rfl
        · rw [if_neg hc]
          unfold stepCond
          constructor
          · rintro (rfl | hy)
            · exact Or.inr (Or.inr ⟨rfl, hq⟩)
            · exact Or.inl hy
          · rintro (hy | ⟨hcc, _⟩ | ⟨rfl, _⟩)
            · exact Or.inr hy
            · exact absurd hcc (by simpa using hc)
            · exact Or.inl rfl
      · rw [if_neg hq]
        by_cases hc : checkSelf (getS fsm i).kind ch
        · rw [if_pos hc, mem_foldl_insertL]
          unfold stepCond
          constructor
          · rintro (hy | hy)
            · exact Or.inl hy
            · exact Or.inr (Or.inl ⟨hc, hy⟩)
          · rintro (hy | ⟨_, hy⟩ | ⟨rfl, hq2, hl⟩)
            · exact Or.inl hy
            · exact Or.inr hy
            · exact absurd ⟨hq2, hl⟩ hq
        · rw [if_neg hc]
          unfold stepCond
          constructor
          · exact Or.inl
          · rintro (hy | ⟨hcc, _⟩ | ⟨rfl, hq2, hl⟩)
            · exact hy
            · exact absurd hcc (by simpa using hc)
            · exact absurd ⟨hq2, hl⟩ hq
    rw [hone]
    constructor
    · rintro ((hy | hy) | ⟨j, hj, hcond⟩)
      · exact Or.inl hy
      · exact Or.inr ⟨i, List.mem_cons_self _ _, hy⟩
      · exact Or.inr ⟨j, List.mem_cons_of_mem _ hj, hcond⟩
    · rintro (hy | ⟨j, hj, hcond⟩)
      · exact Or.inl (Or.inl hy)
      · rcases List.mem_cons.mp hj with rfl | hj
        · exact Or.inl (Or.inr hcond)
        · exact Or.inr ⟨j, hj, hcond⟩

theorem mem_stepChar (fsm : RegexFSM) (act : List Nat) (ch : Char) (x : Nat) :
    x ∈ stepChar fsm act ch ↔ ∃ i ∈ act, stepCond fsm ch i x := by
  unfold stepChar
  rw [mem_stepChar_aux]
  simp

/-! ## The closure preserves duplicate-freeness -/

theorem pushNew_nodup (ns : List Nat) :
    ∀ (stack res : List Nat), res.Nodup → (pushNew ns stack res).2.Nodup := by
  induction ns with
  | nil => intro stack res h; exact h
  | cons n ns ih =>
    intro stack res h
    by_cases hn : n ∈ res
    · rw [pushNew, if_pos hn]
      exact ih _ _ h
    · rw [pushNew, if_neg hn]
      exact ih _ _ (List.nodup_cons.mpr ⟨hn, h⟩)

theorem closureAux_nodup (fsm : RegexFSM) :
    ∀ (fuel : Nat) (stack res : List Nat), res.Nodup →
    (closureAux fsm fuel stack res).Nodup := by
  intro fuel
  induction fuel with
  | zero => intro stack res h; exact h
  | succ fuel ih =>
    intro stack res h
    match stack with
    | [] => exact h
    | st :: stack =>
      rw [closureAux]
      by_cases heps : isEpsK (getS fsm st).kind
      · rw [if_pos heps]
        exact ih _ _ (pushNew_nodup _ _ _ h)
      · rw [if_neg heps]
        exact ih _ _ h

theorem closureF_nodup (fsm : RegexFSM) (s : List Nat) (h : s.Nodup) :
    (closureF fsm s).Nodup := closureAux_nodup fsm _ s s h

/-! ## Quantifier-free patterns: the chain automaton -/

theorem sizeSum_map_plain (cs : List Char) :
    sizeSum (cs.map Tok.plain) = cs.length := by
  induction cs with
  | nil => simp
  | cons c cs ih => simp [tokSize, ih]; omega

theorem map_plain_split (cs : List Char) (m : Nat) (hm : m < cs.length) :
    cs.map Tok.plain = ((cs.take m).map Tok.plain)
      ++ Tok.plain cs[m] :: ((cs.drop (m + 1)).map Tok.plain) := by
  have h1 : cs.take m ++ cs[m] :: cs.drop (m + 1) = cs := by
    rw [List.getElem_cons_drop cs m hm, List.take_append_drop]
  conv_lhs => rw [← h1]
  rw [List.map_append, List.map_cons]

/-- The single state of the `m`-th chain block. -/
theorem chain_state (cs : List Char) (m : Nat) (hm : m < cs.length) :
    getS ⟨modelArena (cs.map Tok.plain)⟩ (2 + m)
      = ⟨atomKind cs[m], exitOf (2 + m + 1) ((cs.drop (m + 1)).map Tok.plain), none⟩ := by
  rw [map_plain_split cs m hm]
  have hsz : sizeSum ((cs.take m).map Tok.plain) = m := by
    rw [sizeSum_map_plain]
    simp [List.length_take]
    omega
  have hidx : 2 + m = 2 + sizeSum ((cs.take m).map Tok.plain) + 0 := by omega
  rw [hidx, getS_modelArena _ (Tok.plain cs[m]) _ 0 (by simp [tokSize])]
  simp only [blockOf, List.getD_cons_zero, tokSize]

/-- The chain position after `m` consumed characters: the `m`-th atom while
within the pattern, the termination state at its end. -/
def posIdx (n m : Nat) : Nat := if m < n then 2 + m else 1

theorem posIdx_ne_zero (n m : Nat) : posIdx n m ≠ 0 := by
  unfold posIdx
  by_cases h : m < n <;> simp [h]

theorem chain_next (cs : List Char) (b : Nat) (k : Nat) :
    exitOf b ((cs.drop k).map Tok.plain) = if k < cs.length then [b] else [1] := by
  cases hd : cs.drop k with
  | nil =>
    have hlen : cs.length ≤ k := List.drop_eq_nil_iff.mp hd
    rw [if_neg (by omega)]
    simp [exitOf]
  | cons c l =>
    have hlen : k < cs.length := by
      by_contra h
      push_neg at h
      rw [List.drop_eq_nil_iff.mpr h] at hd
      cases hd
    rw [if_pos hlen]
    simp [exitOf, entryEdges]

theorem chain_state_next (cs : List Char) (m : Nat) (hm : m < cs.length) :
    getS ⟨modelArena (cs.map Tok.plain)⟩ (2 + m)
      = ⟨atomKind cs[m], [posIdx cs.length (m + 1)], none⟩ := by
  rw [chain_state cs m hm, chain_next]
  unfold posIdx
  by_cases h : m + 1 < cs.length
  · simp [h]
    omega
  · simp [h]

theorem chain_not_eps (cs : List Char) (m : Nat) :
    ¬ isEpsK (getS ⟨modelArena (cs.map Tok.plain)⟩ (posIdx cs.length m)).kind = true := by
  unfold posIdx
  by_cases h : m < cs.length
  · rw [if_pos h, chain_state_next cs m h]
    simp [atomKind_not_eps]
  · rw [if_neg h, getS_modelArena_term]
    simp [isEpsK]

theorem chain_step_mem (cs : List Char) (hdot : ∀ c ∈ cs, c ≠ '.') (m : Nat)
    (hm : m < cs.length) (act : List Nat)
    (hact : ∀ x, x ∈ act ↔ x = 2 + m) (ch : Char) (x : Nat) :
    x ∈ stepChar ⟨modelArena (cs.map Tok.plain)⟩ act ch
      ↔ (ch = cs[m] ∧ x = posIdx cs.length (m + 1)) := by
  rw [mem_stepChar]
  have hstate := chain_state_next cs m hm
  have hascii : atomKind cs[m] = Kind.ascii cs[m] := by
    unfold atomKind
    rw [if_neg (hdot cs[m] (List.getElem_mem hm))]
  constructor
  · rintro ⟨i, hi, hcond⟩
    rw [hact] at hi
    subst hi
    rcases hcond with ⟨hc, hx⟩ | ⟨_, hq, _⟩
    · rw [hstate] at hc hx
      simp only at hc hx
      rw [hascii] at hc
      simp [checkSelf] at hc
      simp at hx
      exact ⟨by simpa using hc, hx⟩
    · rw [hstate] at hq
      simp only at hq
      rcases hq with h | h
      · exact absurd h (atomKind_ne_star _)
      · exact absurd h (atomKind_ne_plus _)
  · rintro ⟨hch, rfl⟩
    refine ⟨2 + m, (hact _).mpr rfl, Or.inl ?_⟩
    rw [hstate]
    constructor
    · rw [hascii]
      simp [checkSelf, hch]
    · simp

theorem chain_F_mem (cs : List Char) (hdot : ∀ c ∈ cs, c ≠ '.') (m : Nat)
    (hm : m < cs.length) (act : List Nat)
    (hact : ∀ x, x ∈ act ↔ x = 2 + m) (ch : Char) (x : Nat) :
    x ∈ closureF ⟨modelArena (cs.map Tok.plain)⟩
        (stepChar ⟨modelArena (cs.map Tok.plain)⟩ act ch)
      ↔ (ch = cs[m] ∧ x = posIdx cs.length (m + 1)) := by
  rw [mem_closureF]
  constructor
  · rintro ⟨i, hi, hr⟩
    rw [chain_step_mem cs hdot m hm act hact] at hi
    obtain ⟨hch, rfl⟩ := hi
    rw [epsReach_of_not_eps (chain_not_eps cs (m + 1))] at hr
    exact ⟨hch, hr⟩
  · rintro ⟨hch, rfl⟩
    exact ⟨posIdx cs.length (m + 1),
      (chain_step_mem cs hdot m hm act hact ch _).mpr ⟨hch, rfl⟩,
      Relation.ReflTransGen.refl⟩

theorem term_step_empty (cs : List Char) (act : List Nat)
    (hact : ∀ x, x ∈ act → x = 1) (ch : Char) (x : Nat) :
    x ∉ stepChar ⟨modelArena (cs.map Tok.plain)⟩ act ch := by
  rw [mem_stepChar]
  rintro ⟨i, hi, hcond⟩
  have := hact i hi
  subst this
  rcases hcond with ⟨hc, _⟩ | ⟨_, hq, _⟩
  · rw [getS_modelArena_term] at hc
    simp [checkSelf] at hc
  · rw [getS_modelArena_term] at hq
    simp at hq

theorem chain_fold_empty (cs : List Char) (rest : List Char) :
    ∀ (act : List Nat), (∀ x, x ∉ act) →
    ∀ x, x ∉ rest.foldl
      (fun act ch => closureF ⟨modelArena (cs.map Tok.plain)⟩
        (stepChar ⟨modelArena (cs.map Tok.plain)⟩ act ch)) act := by
  induction rest with
  | nil => intro act hact x; exact hact x
  | cons ch rest ih =>
    intro act hact x
    rw [List.foldl_cons]
    refine ih _ ?_ x
    intro y hy
    rw [mem_closureF] at hy
    obtain ⟨i, hi, _⟩ := hy
    rw [mem_stepChar] at hi
    obtain ⟨j, hj, _⟩ := hi
    exact hact j hj

theorem chain_fold (cs : List Char) (hdot : ∀ c ∈ cs, c ≠ '.') (rest : List Char) :
    ∀ (m : Nat) (act : List Nat), m ≤ cs.length →
    (∀ x, x ∈ act ↔ x = posIdx cs.length m) →
    ((1 ∈ closureF ⟨modelArena (cs.map Tok.plain)⟩
        (rest.foldl
          (fun act ch => closureF ⟨modelArena (cs.map Tok.plain)⟩
            (stepChar ⟨modelArena (cs.map Tok.plain)⟩ act ch)) act))
      ↔ rest = cs.drop m) := by
  induction rest with
  | nil =>
    intro m act hm hact
    rw [List.foldl_nil, mem_closureF]
    constructor
    · rintro ⟨i, hi, hr⟩
      rw [hact] at hi
      subst hi
      rw [epsReach_of_not_eps (chain_not_eps cs m)] at hr
      have hmn : ¬ m < cs.length := by
        intro h
        rw [posIdx, if_pos h] at hr
        omega
      rw [List.drop_eq_nil_iff.mpr (by omega)]
    · intro hdrop
      have hmn : cs.length ≤ m := by
        have := List.drop_eq_nil_iff.mp hdrop.symm
        omega
      have hpos : posIdx cs.length m = 1 := by
        rw [posIdx, if_neg (by omega)]
      exact ⟨1, by rw [hact, hpos], Relation.ReflTransGen.refl⟩
  | cons ch rest ih =>
    intro m act hm hact
    rw [List.foldl_cons]
    by_cases hmn : m < cs.length
    · have hact2 : ∀ x, x ∈ act ↔ x = 2 + m := by
        intro x
        rw [hact, posIdx, if_pos hmn]
      by_cases hch : ch = cs[m]
      · have hstep : ∀ x,
            x ∈ closureF ⟨modelArena (cs.map Tok.plain)⟩
              (stepChar ⟨modelArena (cs.map Tok.plain)⟩ act ch)
              ↔ x = posIdx cs.length (m + 1) := by
          intro x
          rw [chain_F_mem cs hdot m hmn act hact2]
          simp [hch]
        rw [ih (m + 1) _ (by omega) hstep]
        have hdropm : cs.drop m = cs[m] :: cs.drop (m + 1) :=
          (List.getElem_cons_drop cs m hmn).symm
        constructor
        · intro h
          rw [hdropm, hch, h]
        · intro h
          rw [hdropm] at h
          injection h with h1 h2
      · have hstep : ∀ x,
            x ∉ closureF ⟨modelArena (cs.map Tok.plain)⟩
              (stepChar ⟨modelArena (cs.map Tok.plain)⟩ act ch) := by
          intro x hx
          rw [chain_F_mem cs hdot m hmn act hact2] at hx
          exact hch hx.1
        constructor
        · intro h1
          exfalso
          have := chain_fold_empty cs rest _ hstep 1
          rw [mem_closureF] at h1
          obtain ⟨i, hi, _⟩ := h1
          exact chain_fold_empty cs rest _ hstep i hi
        · intro hdrop
          exfalso
          have hdropm : cs.drop m = cs[m] :: cs.drop (m + 1) :=
            (List.getElem_cons_drop cs m hmn).symm
          rw [hdropm] at hdrop
          exact hch (List.cons.injEq _ _ _ _ ▸ hdrop).1
    · have hpos : posIdx cs.length m = 1 := by
        rw [posIdx, if_neg hmn]
      have hstep : ∀ x,
          x ∉ closureF ⟨modelArena (cs.map Tok.plain)⟩
            (stepChar ⟨modelArena (cs.map Tok.plain)⟩ act ch) := by
        intro x hx
        rw [mem_closureF] at hx
        obtain ⟨i, hi, _⟩ := hx
        exact term_step_empty cs act
          (fun y hy => by rw [hact, hpos] at hy; exact hy) ch i hi
      constructor
      · intro h1
        exfalso
        rw [mem_closureF] at h1
        obtain ⟨i, hi, _⟩ := h1
        exact chain_fold_empty cs rest _ hstep i hi
      · intro hdrop
        exfalso
        rw [List.drop_eq_nil_iff.mpr (by omega)] at hdrop
        cases hdrop

/-- A quantifier-free, dot-free pattern matches exactly itself. -/
theorem chain_check (cs : List Char) (hdot : ∀ c ∈ cs, c ≠ '.') (s : String) :
    RegexFSM.check_string ⟨modelArena (cs.map Tok.plain)⟩ s = true ↔ s.toList = cs := by
  unfold RegexFSM.check_string
  simp only [decide_eq_true_eq]
  have ha0 : ∀ x, x ∈ (closureF ⟨modelArena (cs.map Tok.plain)⟩ [0]).erase 0
      ↔ x = posIdx cs.length 0 := by
    intro x
    have hnd : (closureF ⟨modelArena (cs.map Tok.plain)⟩ [0]).Nodup :=
      closureF_nodup _ _ (by simp)
    rw [List.Nodup.mem_erase_iff hnd, mem_closureF]
    have hreach : (∃ i ∈ [0], epsReach ⟨modelArena (cs.map Tok.plain)⟩ i x)
        ↔ (x = 0 ∨ x = posIdx cs.length 0) := by
      constructor
      · rintro ⟨i, hi, hr⟩
        rcases List.mem_singleton.mp hi with rfl
        rcases epsReach_head (by rw [getS_modelArena_start]; simp [isEpsK]) hr
          with rfl | ⟨k, hk, hkr⟩
        · exact Or.inl rfl
        · rw [getS_modelArena_start] at hk
          cases hcs : cs with
          | nil =>
            subst hcs
            simp [exitOf] at hk
            subst hk
            rw [epsReach_of_not_eps (by rw [getS_modelArena_term]; simp [isEpsK])] at hkr
            exact Or.inr (by rw [hkr, posIdx]; simp)
          | cons c cs' =>
            subst hcs
            simp [exitOf, entryEdges] at hk
            subst hk
            have h2 : (2 : Nat) = 2 + 0 := rfl
            rw [epsReach_of_not_eps (by
              rw [h2, chain_state_next _ 0 (by simp)]
              simp [atomKind_not_eps])] at hkr
            refine Or.inr (by rw [hkr, posIdx]; simp)
      · rintro (rfl | rfl)
        · exact ⟨0, List.mem_singleton.mpr rfl, Relation.ReflTransGen.refl⟩
        · refine ⟨0, List.mem_singleton.mpr rfl, Relation.ReflTransGen.single ?_⟩
          constructor
          · rw [getS_modelArena_start]
            simp [isEpsK]
          · rw [getS_modelArena_start]
            simp only
            cases hcs : cs with
            | nil => simp [exitOf, posIdx]
            | cons c cs' => simp [exitOf, entryEdges, posIdx]
    rw [hreach]
    constructor
    · rintro ⟨hne, rfl | h⟩
      · exact absurd rfl hne
      · exact h
    · rintro rfl
      exact ⟨posIdx_ne_zero _ _, Or.inr rfl⟩
  have := chain_fold cs hdot s.toList 0 _ (Nat.zero_le _) ha0
  rw [List.drop_zero] at this
  exact this

/-- The built automaton, presented through the model arena. -/
theorem build_eq (p : String) : build p = ⟨modelArena (tokens p.toList)⟩ := by
  rw [← build_model]

theorem tokens_no_quant (cs : List Char) (hs : '*' ∉ cs) (hp : '+' ∉ cs) :
    tokens cs = cs.map Tok.plain := by
  induction cs using tokens.induct with
  | case1 => rfl
  | case2 c => rfl
  | case3 c rest ih =>
    exact absurd (List.mem_cons_of_mem _ (List.mem_cons_self _ _)) hs
  | case4 c rest hne ih =>
    exact absurd (List.mem_cons_of_mem _ (List.mem_cons_self _ _)) hp
  | case5 c q rest hq hq2 ih =>
    rw [tokens, if_neg hq, if_neg hq2, List.map_cons]
    rw [ih (fun h => hs (List.mem_cons_of_mem _ h)) (fun h => hp (List.mem_cons_of_mem _ h))]

/-! ## The specification-side simulator

These definitions follow the wording of the specification (§4.2): the
epsilon closure is "the set of all states reachable from a given set purely
via epsilon transitions", and the step protocol is stated on sets of
states.  They are written from the spec, to be compared with the
transcribed code above. -/

/-- Spec §4.2: epsilon closure of a set of states. -/
def specClosure (fsm : RegexFSM) (S : Set Nat) : Set Nat :=
  {j | ∃ i ∈ S, epsReach fsm i j}

/-- Spec §4.2 step 2: the next active set for one input character. -/
def specStep (fsm : RegexFSM) (A : Set Nat) (ch : Char) : Set Nat :=
  {j | (∃ i ∈ A, checkSelf (getS fsm i).kind ch = true ∧ j ∈ (getS fsm i).next)
    ∨ (j ∈ A ∧ ((getS fsm j).kind = Kind.star ∨ (getS fsm j).kind = Kind.plus)
        ∧ loopCheck fsm (getS fsm j) ch = true)}

/-- Spec §4.2: acceptance — seed with the closure of the start state minus
the start state, fold the per-character steps, close, and ask for the
termination state. -/
def specMatches (fsm : RegexFSM) (s : String) : Prop :=
  1 ∈ specClosure fsm
    (s.toList.foldl (fun A ch => specClosure fsm (specStep fsm A ch))
      (specClosure fsm {0} \ {0}))

theorem step_agree (fsm : RegexFSM) (ch : Char) (act : List Nat) (A : Set Nat)
    (hA : ∀ x, x ∈ act ↔ x ∈ A) (x : Nat) :
    x ∈ closureF fsm (stepChar fsm act ch) ↔ x ∈ specClosure fsm (specStep fsm A ch) := by
  rw [mem_closureF]
  have hmem : ∀ i, i ∈ stepChar fsm act ch ↔ i ∈ specStep fsm A ch := by
    intro i
    rw [mem_stepChar]
    unfold specStep
    simp only [Set.mem_setOf_eq]
    constructor
    · rintro ⟨j, hj, ⟨hc, hn⟩ | ⟨rfl, hq, hl⟩⟩
      · exact Or.inl ⟨j, (hA j).mp hj, hc, hn⟩
      · exact Or.inr ⟨(hA i).mp hj, hq, hl⟩
    · rintro (⟨j, hj, hc, hn⟩ | ⟨hi, hq, hl⟩)
      · exact ⟨j, (hA j).mpr hj, Or.inl ⟨hc, hn⟩⟩
      · exact ⟨i, (hA i).mpr hi, Or.inr ⟨rfl, hq, hl⟩⟩
  unfold specClosure
  simp only [Set.mem_setOf_eq]
  constructor
  · rintro ⟨i, hi, hr⟩
    exact ⟨i, (hmem i).mp hi, hr⟩
  · rintro ⟨i, hi, hr⟩
    exact ⟨i, (hmem i).mpr hi, hr⟩

theorem init_agree (fsm : RegexFSM) (x : Nat) :
    x ∈ (closureF fsm [0]).erase 0 ↔ x ∈ (specClosure fsm {0} \ {0} : Set Nat) := by
  have hnd : (closureF fsm [0]).Nodup := closureF_nodup _ _ (by simp)
  rw [List.Nodup.mem_erase_iff hnd, mem_closureF]
  unfold specClosure
  simp only [Set.mem_diff, Set.mem_setOf_eq, Set.mem_singleton_iff]
  constructor
  · rintro ⟨hne, i, hi, hr⟩
    rcases List.mem_singleton.mp hi with rfl
    exact ⟨⟨0, rfl, hr⟩, hne⟩
  · rintro ⟨⟨i, rfl, hr⟩, hne⟩
    exact ⟨hne, 0, List.mem_singleton.mpr rfl, hr⟩

theorem fold_agree (fsm : RegexFSM) (l : List Char) :
    ∀ (act : List Nat) (A : Set Nat), (∀ x, x ∈ act ↔ x ∈ A) →
    ∀ x, x ∈ l.foldl (fun act ch => closureF fsm (stepChar fsm act ch)) act
      ↔ x ∈ l.foldl (fun A ch => specClosure fsm (specStep fsm A ch)) A := by
  induction l with
  | nil => intro act A hA x; simpa using hA x
  | cons ch l ih =>
    intro act A hA x
    rw [List.foldl_cons, List.foldl_cons]
    exact ih _ _ (fun y => step_agree fsm ch act A hA y) x

/-- The transcribed `check_string` agrees with the specification's step
protocol on every automaton and every input. -/
theorem check_string_spec (fsm : RegexFSM) (s : String) :
    (fsm.check_string s = true) ↔ specMatches fsm s := by
  unfold RegexFSM.check_string specMatches
  simp only [decide_eq_true_eq]
  have hfold := fold_agree fsm s.toList ((closureF fsm [0]).erase 0)
    (specClosure fsm {0} \ {0}) (init_agree fsm)
  rw [mem_closureF]
  unfold specClosure
  simp only [Set.mem_setOf_eq]
  constructor
  · rintro ⟨i, hi, hr⟩
    exact ⟨i, (hfold i).mp hi, hr⟩
  · rintro ⟨i, hi, hr⟩
    exact ⟨i, (hfold i).mpr hi, hr⟩

/-! ## Termination of the worklist: extra fuel is never used -/

theorem closureAux_fuel_add (fsm : RegexFSM) :
    ∀ (fuel : Nat) (stack res : List Nat),
    (targets fsm \ res.toFinset).card + stack.length ≤ fuel →
    ∀ k, closureAux fsm (fuel + k) stack res = closureAux fsm fuel stack res := by
  intro fuel
  induction fuel with
  | zero =>
    intro stack res hb k
    have hstack : stack = [] := by
      cases stack with
      | nil => rfl
      | cons a l => simp at hb
    subst hstack
    cases k with
    | zero => rfl
    | succ k => rfl
  | succ fuel ih =>
    intro stack res hb k
    match stack with
    | [] =>
      rw [show fuel + 1 + k = (fuel + k) + 1 from by omega]
      rfl
    | st :: stack =>
      rw [show fuel + 1 + k = (fuel + k) + 1 from by omega]
      rw [closureAux, closureAux]
      by_cases heps : isEpsK (getS fsm st).kind
      · rw [if_pos heps, if_pos heps]
        apply ih
        have hmeas := pushNew_measure (getS fsm st).next stack res (targets fsm)
          (next_subset_targets fsm st)
        simp only [List.length_cons] at hb
        omega
      · rw [if_neg heps, if_neg heps]
        apply ih
        simp only [List.length_cons] at hb
        omega

/-- The worklist always drains within `|s| + totalEdges + 1` pops: any
extra fuel leaves the result unchanged. -/
theorem closureF_stable (fsm : RegexFSM) (s : List Nat) (k : Nat) :
    closureAux fsm (s.length + totalEdges fsm + 1 + k) s s = closureF fsm s := by
  unfold closureF
  apply closureAux_fuel_add
  have h1 : (targets fsm \ s.toFinset).card ≤ (targets fsm).card :=
    Finset.card_le_card (Finset.sdiff_subset)
  have h2 := targets_card_le fsm
  omega

/-! ## Graph reachability from the start state -/

/-- One transition of any kind. -/
def stepAll (fsm : RegexFSM) (i j : Nat) : Prop := j ∈ (getS fsm i).next

/-- Reachability along transitions of any kind. -/
def reachAll (fsm : RegexFSM) : Nat → Nat → Prop :=
  Relation.ReflTransGen (stepAll fsm)

theorem reach_suffix (T : List Tok) :
    ∀ (T2 T1 : List Tok), T = T1 ++ T2 →
    ∀ e, (getS ⟨modelArena T⟩ e).next = exitOf (2 + sizeSum T1) T2 →
    reachAll ⟨modelArena T⟩ 0 e →
    (reachAll ⟨modelArena T⟩ 0 1
      ∧ ∀ i, 2 + sizeSum T1 ≤ i → i < 2 + sizeSum T1 + sizeSum T2
        → reachAll ⟨modelArena T⟩ 0 i) := by
  intro T2
  induction T2 with
  | nil =>
    intro T1 hT e hnext he
    constructor
    · refine Relation.ReflTransGen.tail he ?_
      unfold stepAll
      rw [hnext]
      simp [exitOf]
    · intro i h1 h2
      simp only [sizeSum_nil] at h2
      omega
  | cons t T2 ih =>
    intro T1 hT e hnext he
    cases t with
    | plain c =>
      have hatom : reachAll ⟨modelArena T⟩ 0 (2 + sizeSum T1) := by
        refine Relation.ReflTransGen.tail he ?_
        unfold stepAll
        rw [hnext]
        simp [exitOf, entryEdges]
      have hT2 : T = (T1 ++ [Tok.plain c]) ++ T2 := by
        rw [hT, List.append_assoc, List.singleton_append]
      have hstate : getS ⟨modelArena T⟩ (2 + sizeSum T1)
          = ⟨atomKind c, exitOf (2 + sizeSum T1 + 1) T2, none⟩ := by
        rw [hT]
        have h0 := getS_modelArena T1 (Tok.plain c) T2 0 (by simp [tokSize])
        simpa [blockOf, tokSize] using h0
      have hrec := ih (T1 ++ [Tok.plain c]) hT2 (2 + sizeSum T1)
        (by
          rw [hstate]
          have harg : 2 + sizeSum (T1 ++ [Tok.plain c]) = 2 + sizeSum T1 + 1 := by
            simp only [sizeSum_append, sizeSum_cons, sizeSum_nil, tokSize]
            omega
          rw [harg])
        hatom
      refine ⟨hrec.1, ?_⟩
      intro i h1 h2
      by_cases hi : i = 2 + sizeSum T1
      · rw [hi]
        exact hatom
      · refine hrec.2 i ?_ ?_
        · simp only [sizeSum_append, sizeSum_cons, sizeSum_nil, tokSize]
          omega
        · simp only [sizeSum_append, sizeSum_cons, sizeSum_nil, tokSize] at h2 ⊢
          omega
    | star c =>
      have hatom : reachAll ⟨modelArena T⟩ 0 (2 + sizeSum T1) := by
        refine Relation.ReflTransGen.tail he ?_
        unfold stepAll
        rw [hnext]
        simp [exitOf, entryEdges]
      have hT2 : T = (T1 ++ [Tok.star c]) ++ T2 := by
        rw [hT, List.append_assoc, List.singleton_append]
      have hstate1 : getS ⟨modelArena T⟩ (2 + sizeSum T1 + 1)
          = ⟨Kind.star, exitOf (2 + sizeSum T1 + 2) T2, some (2 + sizeSum T1)⟩ := by
        rw [hT]
        have h1 := getS_modelArena T1 (Tok.star c) T2 1 (by simp [tokSize])
        simpa [blockOf, tokSize] using h1
      have hquant : reachAll ⟨modelArena T⟩ 0 (2 + sizeSum T1 + 1) := by
        refine Relation.ReflTransGen.tail he ?_
        unfold stepAll
        rw [hnext]
        simp [exitOf, entryEdges]
      have hrec := ih (T1 ++ [Tok.star c]) hT2 (2 + sizeSum T1 + 1)
        (by
          rw [hstate1]
          have harg : 2 + sizeSum (T1 ++ [Tok.star c]) = 2 + sizeSum T1 + 2 := by
            simp only [sizeSum_append, sizeSum_cons, sizeSum_nil, tokSize]
            omega
          rw [harg])
        hquant
      refine ⟨hrec.1, ?_⟩
      intro i h1 h2
      by_cases hi : i = 2 + sizeSum T1
      · rw [hi]
        exact hatom
      · by_cases hi2 : i = 2 + sizeSum T1 + 1
        · rw [hi2]
          exact hquant
        · refine hrec.2 i ?_ ?_
          · simp only [sizeSum_append, sizeSum_cons, sizeSum_nil, tokSize]
            omega
          · simp only [sizeSum_append, sizeSum_cons, sizeSum_nil, tokSize] at h2 ⊢
            omega
    | plus c =>
      have hatom : reachAll ⟨modelArena T⟩ 0 (2 + sizeSum T1) := by
        refine Relation.ReflTransGen.tail he ?_
        unfold stepAll
        rw [hnext]
        simp [exitOf, entryEdges]
      have hT2 : T = (T1 ++ [Tok.plus c]) ++ T2 := by
        rw [hT, List.append_assoc, List.singleton_append]
      have hstate0 : getS ⟨modelArena T⟩ (2 + sizeSum T1)
          = ⟨atomKind c, [2 + sizeSum T1 + 1], none⟩ := by
        rw [hT]
        have h0 := getS_modelArena T1 (Tok.plus c) T2 0 (by simp [tokSize])
        simpa [blockOf, tokSize] using h0
      have hstate1 : getS ⟨modelArena T⟩ (2 + sizeSum T1 + 1)
          = ⟨Kind.plus, exitOf (2 + sizeSum T1 + 2) T2, some (2 + sizeSum T1)⟩ := by
        rw [hT]
        have h1 := getS_modelArena T1 (Tok.plus c) T2 1 (by simp [tokSize])
        simpa [blockOf, tokSize] using h1
      have hquant : reachAll ⟨modelArena T⟩ 0 (2 + sizeSum T1 + 1) := by
        refine Relation.ReflTransGen.tail hatom ?_
        unfold stepAll
        rw [hstate0]
        simp
      have hrec := ih (T1 ++ [Tok.plus c]) hT2 (2 + sizeSum T1 + 1)
        (by
          rw [hstate1]
          have harg : 2 + sizeSum (T1 ++ [Tok.plus c]) = 2 + sizeSum T1 + 2 := by
            simp only [sizeSum_append, sizeSum_cons, sizeSum_nil, tokSize]
            omega
          rw [harg])
        hquant
      refine ⟨hrec.1, ?_⟩
      intro i h1 h2
      by_cases hi : i = 2 + sizeSum T1
      · rw [hi]
        exact hatom
      · by_cases hi2 : i = 2 + sizeSum T1 + 1
        · rw [hi2]
          exact hquant
        · refine hrec.2 i ?_ ?_
          · simp only [sizeSum_append, sizeSum_cons, sizeSum_nil, tokSize]
            omega
          · simp only [sizeSum_append, sizeSum_cons, sizeSum_nil, tokSize] at h2 ⊢
            omega

theorem reach_all_states (T : List Tok) (i : Nat) (hi : i < (modelArena T).length) :
    reachAll ⟨modelArena T⟩ 0 i := by
  have h := reach_suffix T T [] (by simp) 0
    (by rw [getS_modelArena_start]; simp)
    Relation.ReflTransGen.refl
  match i with
  | 0 => exact Relation.ReflTransGen.refl
  | 1 => exact h.1
  | (k + 2) =>
    refine h.2 (k + 2) (by simp) ?_
    rw [modelArena_length] at hi
    simp only [sizeSum_nil]
    omega

theorem start_unreachable (T : List Tok) (i : Nat)
    (h : reachAll ⟨modelArena T⟩ i 0) : i = 0 := by
  rcases Relation.ReflTransGen.cases_tail h with h0 | ⟨j, _, hj⟩
  · exact h0.symm
  · exact absurd hj (zero_not_target T j)

example : (build "a*4.+hi").check_string "aaaaaa4uhi" = true := by decide
example : (build "a*4.+hi").check_string "4uhi" = true := by decide
example : (build "a*4.+hi").check_string "meow" = false := by decide
example : (build "a*4.+hi").check_string "a4/hi" = true := by decide
example : (build "a*4.+hi").check_string "4hi" = false := by decide
example : (build "x+").check_string "" = false := by decide
example : (build "x+").check_string "x" = true := by decide
example : (build "x+").check_string "xxx" = true := by decide
example : (build "a*").check_string "" = true := by decide
example : (build "").check_string "" = true := by decide

/-! ## The claims -/

/-- Claim C1: for every pattern and every input string, `check_string`
returns true iff the input, consumed in full, drives the compiled automaton
from start to termination under the transition and epsilon rules of the
step protocol (`specMatches`, written from the spec); in particular the
automaton compiled from "a*4.+hi" rejects "4hi". -/
theorem claim_C1 :
    (∀ (p s : String), ((build p).check_string s = true ↔ specMatches (build p) s))
    ∧ (build "a*4.+hi").check_string "4hi" = false :=
  ⟨fun p s => check_string_spec (build p) s, by decide⟩

/-- Claim C2, counterexample: the pattern "." contains no quantifier
character, yet its automaton accepts the input "x", which is not equal to
the pattern — the wildcard breaks the claimed equivalence with string
equality. -/
theorem claim_C2_counterexample :
    (build ".").check_string "x" = true ∧ ("x" : String) ≠ "." :=
  ⟨by decide, by decide⟩

/-- Claim C2, amended: for every pattern containing no quantifier
characters (`*`, `+`) and no wildcard `.`, `check_string` returns true iff
the input string is exactly the pattern string. -/
theorem claim_C2_amended (p s : String) (hstar : '*' ∉ p.toList)
    (hplus : '+' ∉ p.toList) (hdot : '.' ∉ p.toList) :
    ((build p).check_string s = true ↔ s = p) := by
  rw [build_eq, tokens_no_quant p.toList hstar hplus]
  rw [chain_check p.toList (fun c hc hceq => hdot (hceq ▸ hc)) s]
  constructor
  · intro h
    exact String.ext h
  · intro h
    rw [h]

theorem claim_C2_amended_witness :
    ('*' ∉ ("ab" : String).toList) ∧ ('+' ∉ ("ab" : String).toList)
    ∧ ('.' ∉ ("ab" : String).toList)
    ∧ ((build "ab").check_string "ab" = true ↔ ("ab" : String) = "ab") :=
  ⟨by decide, by decide, by decide,
    claim_C2_amended "ab" "ab" (by decide) (by decide) (by decide)⟩

/-- Claim C3: for every pattern containing a `+` quantifier applied to some
atom (a plus token in the builder's own tokenization), `check_string("")`
returns false. -/
theorem claim_C3 (p : String) (h : ∃ c, Tok.plus c ∈ tokens p.toList) :
    (build p).check_string "" = false := by
  rw [build_eq]
  by_contra hb
  have htrue : RegexFSM.check_string ⟨modelArena (tokens p.toList)⟩ "" = true := by
    cases hcheck : RegexFSM.check_string ⟨modelArena (tokens p.toList)⟩ "" with
    | false => exact absurd hcheck hb
    | true => rfl
  exact plus_blocks_eps (tokens p.toList) h ((check_empty_iff _).mp htrue)

theorem claim_C3_witness :
    (∃ c, Tok.plus c ∈ tokens ("x+" : String).toList)
    ∧ (build "x+").check_string "" = false :=
  ⟨⟨'x', by decide⟩, claim_C3 "x+" ⟨'x', by decide⟩⟩

/-- Claim C4: for every pattern, `check_string("")` returns true iff the
termination state is reachable from the start state via epsilon-only
transitions. -/
theorem claim_C4 (p : String) :
    ((build p).check_string "" = true ↔ epsReach (build p) 0 1) := by
  rw [build_eq]
  exact check_empty_iff (tokens p.toList)

/-- Claim C5: `check_string` terminates and returns a boolean for every
pattern and input; the worklist epsilon closure drains its stack within
`|states| + totalEdges + 1` pops — each state is pushed at most once — so
any additional fuel leaves the result unchanged. -/
theorem claim_C5 :
    (∀ (fsm : RegexFSM) (s : List Nat) (k : Nat),
      closureAux fsm (s.length + totalEdges fsm + 1 + k) s s = closureF fsm s)
    ∧ (∀ (p s : String),
      (build p).check_string s = true ∨ (build p).check_string s = false) :=
  ⟨fun fsm s k => closureF_stable fsm s k,
    fun p s => by
      cases h : (build p).check_string s with
      | false => exact Or.inr rfl
      | true => exact Or.inl rfl⟩

/-- Claim C6: every `StarState` and `PlusState` in a built automaton has a
`check_self` that returns false on every character — quantifier states never
directly consume a character. -/
theorem claim_C6 (p : String) (i : Nat) (ch : Char)
    (h : (getS (build p) i).kind = Kind.star ∨ (getS (build p) i).kind = Kind.plus) :
    checkSelf (getS (build p) i).kind ch = false := by
  rcases h with h | h <;> rw [h] <;> rfl

theorem claim_C6_witness :
    ((getS (build "a*") 3).kind = Kind.star ∨ (getS (build "a*") 3).kind = Kind.plus)
    ∧ checkSelf (getS (build "a*") 3).kind 'a' = false :=
  ⟨by decide, claim_C6 "a*" 3 'a' (by decide)⟩

/-- Claim C7: in every built automaton the start state (index 0) has no
incoming transitions and is unreachable from any other state, the
termination state (index 1) has no outgoing transitions, and every state
lies on a transition path from the start state. -/
theorem claim_C7 (p : String) :
    (∀ i, 0 ∉ (getS (build p) i).next)
    ∧ (∀ i, reachAll (build p) i 0 → i = 0)
    ∧ ((getS (build p) 1).next = [])
    ∧ (∀ i, i < (build p).states.length → reachAll (build p) 0 i) := by
  rw [build_eq]
  refine ⟨fun i => zero_not_target _ i, fun i h => start_unreachable _ i h, ?_, ?_⟩
  · rw [getS_modelArena_term]
  · intro i hi
    exact reach_all_states _ i (by simpa using hi)

theorem claim_C7_witness :
    reachAll (build "a*") 0 0 ∧ (0 : Nat) = 0 :=
  ⟨Relation.ReflTransGen.refl, (claim_C7 "a*").2.1 0 Relation.ReflTransGen.refl⟩

/-- Claim C8: consuming an atom followed by `*` appends exactly the edges
`previous → atom` and `previous → Star` to the previous state, gives the
atom exactly the edge `atom → Star`, sets the Star's loop reference to the
atom, and continues with the Star as previous; for `+` the previous state
gains only `previous → atom` (no direct `previous → Plus` edge), the atom
gains `atom → Plus`, the Plus's loop reference is set, and building
continues with the Plus as previous. -/
theorem claim_C8 (c : Char) (rest : List Char) (prev : Nat) (arena : List StateRec)
    (h : prev < arena.length) :
    (buildLoop (c :: '*' :: rest) prev arena
      = buildLoop rest (arena.length + 1)
          (bumpNext arena prev [arena.length, arena.length + 1]
            ++ [⟨atomKind c, [arena.length + 1], none⟩,
                ⟨Kind.star, [], some arena.length⟩]))
    ∧ (buildLoop (c :: '+' :: rest) prev arena
      = buildLoop rest (arena.length + 1)
          (bumpNext arena prev [arena.length]
            ++ [⟨atomKind c, [arena.length + 1], none⟩,
                ⟨Kind.plus, [], some arena.length⟩])) := by
  constructor
  · rw [buildLoop_eq_tokLoop, buildLoop_eq_tokLoop]
    have htok : tokens (c :: '*' :: rest) = Tok.star c :: tokens rest := by
      simp [tokens]
    rw [htok]
    simp only [tokLoop]
    congr 1
    simp only [addEdge_eq_bump]
    rw [bumpNext_append_left _ h]
    rw [bumpNext_pair_fst _ _ _ _ (by simp)]
    rw [bumpNext_append_left _ (by simpa using h), bumpNext_bumpNext]
    simp
  · rw [buildLoop_eq_tokLoop, buildLoop_eq_tokLoop]
    have htok : tokens (c :: '+' :: rest) = Tok.plus c :: tokens rest := by
      have : ¬('+' : Char) = '*' := by decide
      simp [tokens, this]
    rw [htok]
    simp only [tokLoop]
    congr 1
    simp only [addEdge_eq_bump]
    rw [bumpNext_append_left _ h]
    rw [bumpNext_pair_fst _ _ _ _ (by simp)]
    simp

theorem claim_C8_witness :
    ((0 : Nat) < ([⟨Kind.start, [], none⟩, ⟨Kind.termination, [], none⟩]
        : List StateRec).length)
    ∧ ((buildLoop ['a', '*'] 0 [⟨Kind.start, [], none⟩, ⟨Kind.termination, [], none⟩]
        = buildLoop [] 3
            (bumpNext [⟨Kind.start, [], none⟩, ⟨Kind.termination, [], none⟩] 0 [2, 3]
              ++ [⟨atomKind 'a', [3], none⟩, ⟨Kind.star, [], some 2⟩]))
      ∧ (buildLoop ['a', '+'] 0 [⟨Kind.start, [], none⟩, ⟨Kind.termination, [], none⟩]
        = buildLoop [] 3
            (bumpNext [⟨Kind.start, [], none⟩, ⟨Kind.termination, [], none⟩] 0 [2]
              ++ [⟨atomKind 'a', [3], none⟩, ⟨Kind.plus, [], some 2⟩]))) :=
  ⟨by decide, claim_C8 'a' [] 0 _ (by decide)⟩

/-- Claim C9: every `StarState`/`PlusState` in a built automaton has its
`loop_state` set (never the initial `None`) to the atom state directly
before it, so the `st.loop_state.check_self(ch)` dereferences in
`check_string` never fail. -/
theorem claim_C9 (p : String) (i : Nat)
    (h : (getS (build p) i).kind = Kind.star ∨ (getS (build p) i).kind = Kind.plus) :
    ∃ c, (getS (build p) i).loop = some (i - 1)
      ∧ (getS (build p) (i - 1)).kind = atomKind c
      ∧ 2 ≤ i ∧ i < (build p).states.length := by
  rw [build_eq] at h ⊢
  obtain ⟨c, h1, h2, h3, h4⟩ := quant_loop (tokens p.toList) i h
  exact ⟨c, h1, h2, h3, by simpa using h4⟩

theorem claim_C9_witness :
    ((getS (build "a*") 3).kind = Kind.star ∨ (getS (build "a*") 3).kind = Kind.plus)
    ∧ ∃ c, (getS (build "a*") 3).loop = some 2
      ∧ (getS (build "a*") 2).kind = atomKind c
      ∧ 2 ≤ 3 ∧ 3 < (build "a*").states.length :=
  ⟨by decide, claim_C9 "a*" 3 (by decide)⟩

theorem getS_head_block (t0 : Tok) (T2 : List Tok) (off : Nat)
    (hoff : off < tokSize t0) :
    getS ⟨modelArena (t0 :: T2)⟩ (2 + off)
      = (blockOf 2 (exitOf (2 + tokSize t0) T2) t0).getD off dfltState := by
  have h := getS_modelArena [] t0 T2 off hoff
  simpa using h

theorem head_atom_kind (t0 : Tok) (T2 : List Tok) (q : Char)
    (ht : t0 = Tok.plain q ∨ t0 = Tok.star q ∨ t0 = Tok.plus q) :
    (getS ⟨modelArena (t0 :: T2)⟩ 2).kind = atomKind q := by
  rcases ht with rfl | rfl | rfl
  · have h := getS_head_block (Tok.plain q) T2 0 (by simp [tokSize])
    simp only [Nat.add_zero] at h
    rw [h]
    simp [blockOf]
  · have h := getS_head_block (Tok.star q) T2 0 (by simp [tokSize])
    simp only [Nat.add_zero] at h
    rw [h]
    simp [blockOf]
  · have h := getS_head_block (Tok.plus q) T2 0 (by simp [tokSize])
    simp only [Nat.add_zero] at h
    rw [h]
    simp [blockOf]

theorem head_star_state (q : Char) (T2 : List Tok) :
    getS ⟨modelArena (Tok.star q :: T2)⟩ 3 = ⟨Kind.star, exitOf 4 T2, some 2⟩ := by
  have h := getS_head_block (Tok.star q) T2 1 (by simp [tokSize])
  simp only [blockOf, tokSize, List.getD_cons_succ, List.getD_cons_zero,
    show (2 : Nat) + 1 = 3 from rfl, show (2 : Nat) + 2 = 4 from rfl] at h
  exact h

theorem head_plus_state (q : Char) (T2 : List Tok) :
    getS ⟨modelArena (Tok.plus q :: T2)⟩ 3 = ⟨Kind.plus, exitOf 4 T2, some 2⟩ := by
  have h := getS_head_block (Tok.plus q) T2 1 (by simp [tokSize])
  simp only [blockOf, tokSize, List.getD_cons_succ, List.getD_cons_zero,
    show (2 : Nat) + 1 = 3 from rfl, show (2 : Nat) + 2 = 4 from rfl] at h
  exact h

/-- Claim C10: every pattern whose first character is `*` or `+` compiles
without error (the automaton has its states, in particular the atom state at
index 2), the leading character is parsed as an ordinary literal atom
(`AsciiState` holding that character), and that atom is itself subject to
quantification by a following `*` or `+` (the next state is then the Star,
resp. Plus, state whose loop reference is the leading literal atom — with
the tokenization to match); the automaton compiled from "*ab" accepts
exactly the string "*ab". -/
theorem claim_C10 (p : String) (q : Char) (rest : List Char)
    (hp : p.toList = q :: rest) (hq : q = '*' ∨ q = '+') :
    (2 < (build p).states.length ∧ (getS (build p) 2).kind = Kind.ascii q)
    ∧ (∀ rest2, rest = '*' :: rest2 →
        tokens p.toList = Tok.star q :: tokens rest2
        ∧ (getS (build p) 3).kind = Kind.star
        ∧ (getS (build p) 3).loop = some 2)
    ∧ (∀ rest2, rest = '+' :: rest2 →
        tokens p.toList = Tok.plus q :: tokens rest2
        ∧ (getS (build p) 3).kind = Kind.plus
        ∧ (getS (build p) 3).loop = some 2)
    ∧ (∀ s : String, ((build "*ab").check_string s = true ↔ s = "*ab")) := by
  have hne : q ≠ '.' := by rcases hq with rfl | rfl <;> decide
  have hascii : atomKind q = Kind.ascii q := by rw [atomKind, if_neg hne]
  have hplusstar : ¬ ('+' : Char) = '*' := by decide
  have hshape : (rest = [] ∧ tokens (q :: rest) = [Tok.plain q])
      ∨ (∃ r rest2, rest = r :: rest2 ∧ r ≠ '*' ∧ r ≠ '+'
          ∧ tokens (q :: rest) = Tok.plain q :: tokens (r :: rest2))
      ∨ (∃ rest2, rest = '*' :: rest2
          ∧ tokens (q :: rest) = Tok.star q :: tokens rest2)
      ∨ (∃ rest2, rest = '+' :: rest2
          ∧ tokens (q :: rest) = Tok.plus q :: tokens rest2) := by
    cases rest with
    | nil => exact Or.inl ⟨rfl, rfl⟩
    | cons r rest2 =>
      by_cases hr : r = '*'
      · subst hr
        exact Or.inr (Or.inr (Or.inl ⟨rest2, rfl, by simp [tokens]⟩))
      · by_cases hr2 : r = '+'
        · subst hr2
          exact Or.inr (Or.inr (Or.inr ⟨rest2, rfl, by simp [tokens, hplusstar]⟩))
        · exact Or.inr (Or.inl ⟨r, rest2, rfl, hr, hr2, by simp [tokens, hr, hr2]⟩)
  rw [build_eq p, hp]
  refine ⟨⟨?_, ?_⟩, ?_, ?_, ?_⟩
  · rcases hshape with ⟨_, htok⟩ | ⟨r, rest2, _, _, _, htok⟩ | ⟨rest2, _, htok⟩
      | ⟨rest2, _, htok⟩
    all_goals
      rw [htok]
      simp [tokSize]
  · rcases hshape with ⟨_, htok⟩ | ⟨r, rest2, _, _, _, htok⟩ | ⟨rest2, _, htok⟩
      | ⟨rest2, _, htok⟩
    · rw [htok, head_atom_kind _ _ q (Or.inl rfl), hascii]
    · rw [htok, head_atom_kind _ _ q (Or.inl rfl), hascii]
    · rw [htok, head_atom_kind _ _ q (Or.inr (Or.inl rfl)), hascii]
    · rw [htok, head_atom_kind _ _ q (Or.inr (Or.inr rfl)), hascii]
  · intro rest2 hrest
    subst hrest
    have htok : tokens (q :: '*' :: rest2) = Tok.star q :: tokens rest2 := by
      simp [tokens]
    refine ⟨htok, ?_, ?_⟩
    · rw [htok, head_star_state]
    · rw [htok, head_star_state]
  · intro rest2 hrest
    subst hrest
    have htok : tokens (q :: '+' :: rest2) = Tok.plus q :: tokens rest2 := by
      simp [tokens, hplusstar]
    refine ⟨htok, ?_, ?_⟩
    · rw [htok, head_plus_state]
    · rw [htok, head_plus_state]
  · intro s
    rw [build_eq, show tokens ("*ab" : String).toList
      = (['*', 'a', 'b'] : List Char).map Tok.plain from by decide]
    rw [chain_check _ (by decide) s]
    constructor
    · intro h
      exact String.ext h
    · rintro rfl
      rfl

theorem claim_C10_witness :
    (("*+" : String).toList = '*' :: ['+'])
    ∧ (('*' : Char) = '*' ∨ ('*' : Char) = '+')
    ∧ ((2 < (build "*+").states.length
        ∧ (getS (build "*+") 2).kind = Kind.ascii '*')
      ∧ (∀ rest2, ['+'] = '*' :: rest2 →
          tokens ("*+" : String).toList = Tok.star '*' :: tokens rest2
          ∧ (getS (build "*+") 3).kind = Kind.star
          ∧ (getS (build "*+") 3).loop = some 2)
      ∧ (∀ rest2, ['+'] = '+' :: rest2 →
          tokens ("*+" : String).toList = Tok.plus '*' :: tokens rest2
          ∧ (getS (build "*+") 3).kind = Kind.plus
          ∧ (getS (build "*+") 3).loop = some 2)
      ∧ (∀ s : String, ((build "*ab").check_string s = true ↔ s = "*ab"))) :=
  ⟨by decide, Or.inl rfl, claim_C10 "*+" '*' ['+'] (by decide) (Or.inl rfl)⟩

end Regex
